import Mathlib

/-!
# Verification of the Item-Diff-Marketplace diff/search core

Shallow embedding of the algorithmic core of the repository:

* `computeDiffWithAlignment` and `computeSimpleDiff` from
  `src/unnamed/part_004` (the "Safe alignment algorithm" version, the one
  imported by `DiffViewer.tsx` as `./utils/diffAlgorithms`);
* `formatJson` from `src/app/components/utils/editorUtils.ts`;
* the search operations `searchInPreview`, `findNextMatch`,
  `findPreviousMatch`, `clearSearch` from
  `src/app/components/DiffViewer.tsx`, and `searchInEditor` from
  `src/unnamed/part_002`.

JavaScript strings are modelled as `List Char` (sequences of Unicode scalar
values; UTF-16 surrogate-pair details are outside the model).  JavaScript
truthiness of a string is "non-empty"; `null` is modelled by `Option`.
The external CodeMirror `SearchCursor` (case-insensitive, non-overlapping,
left-to-right literal search, per its documented behaviour) and the
JavaScript built-ins `JSON.parse` / `JSON.stringify(v, null, 2)` /
`String.prototype.trim` / `split` / `join` / `replace` are modelled
directly, since they are external primitives the source calls.
-/

namespace ItemDiff

/-- JavaScript strings as lists of Unicode scalar values. -/
abbrev JStr := List Char

/-- Whitespace for JavaScript `trim` / `trimEnd` (ECMAScript WhiteSpace and
LineTerminator code points that occur in practice). -/
def isJsTrimWs (c : Char) : Bool :=
  c == ' ' || c == '\t' || c == '\n' || c == '\r' ||
  c.toNat == 0xb || c.toNat == 0xc || c.toNat == 0xa0 ||
  c.toNat == 0xfeff || c.toNat == 0x2028 || c.toNat == 0x2029

/-- `String.prototype.trimEnd`. -/
def jsTrimEnd (l : JStr) : JStr := (l.reverse.dropWhile isJsTrimWs).reverse

/-- `String.prototype.trim`. -/
def jsTrim (l : JStr) : JStr := jsTrimEnd (l.dropWhile isJsTrimWs)

/-- `s.replace(/\r\n/g, "\n").replace(/\r/g, "\n")`: both regex passes fused
into one structural pass (they commute into exactly this). -/
def normNl : JStr → JStr
  | [] => []
  | c :: t =>
    if c = '\r' then
      match t with
      | [] => ['\n']
      | c2 :: t2 => if c2 = '\n' then '\n' :: normNl t2 else '\n' :: normNl (c2 :: t2)
    else c :: normNl t

/-- JavaScript `s.split("\n")`: always returns at least one (possibly empty)
piece; `"".split("\n")` is `[""]`. -/
def splitOnNl : JStr → List JStr
  | [] => [[]]
  | c :: t =>
    if c = '\n' then [] :: splitOnNl t
    else
      match splitOnNl t with
      | [] => [[c]]
      | g :: gs => (c :: g) :: gs

/-- JavaScript `lines.join("\n")`. -/
def joinNl : List JStr → JStr
  | [] => []
  | [l] => l
  | l :: ls => l ++ '\n' :: joinNl ls

/-! ## The line aligner (`src/unnamed/part_004`, lines 142–285) -/

/-- The `DiffResult` record of `DiffViewer.types.ts`.  The two `Set<number>`s
are modelled as lists in insertion order (the code only inserts fresh,
strictly increasing indices, so insertion order is also ascending order and
membership is all that is consumed). -/
structure DiffResult where
  alignedText1 : JStr
  alignedText2 : JStr
  diffLines1 : List Nat
  diffLines2 : List Nat
deriving DecidableEq

/-- `i < lines.length ? lines[i] : ""` — the defaulting index used by
`computeSimpleDiff`. -/
def lineAt (lines : List JStr) (i : Nat) : JStr := lines.getD i []

/-- `computeSimpleDiff` (part_004 lines 261–285): the naive positional
per-index comparison.  The `for` loop adds `i` to a side's diff set exactly
when the two defaulted lines differ and that side's line is truthy
(non-empty); the aligned texts are the inputs unchanged. -/
def computeSimpleDiff (text1 text2 : JStr) : DiffResult :=
  let lines1 := splitOnNl text1
  let lines2 := splitOnNl text2
  let maxLength := max lines1.length lines2.length
  { alignedText1 := text1
    alignedText2 := text2
    diffLines1 := (List.range maxLength).filter fun i =>
      lineAt lines1 i != lineAt lines2 i && lineAt lines1 i != []
    diffLines2 := (List.range maxLength).filter fun i =>
      lineAt lines1 i != lineAt lines2 i && lineAt lines2 i != [] }

/-- JavaScript truthiness of `string | null`: `null` and `""` are falsy. -/
def jsTruthy : Option JStr → Bool
  | none => false
  | some s => !s.isEmpty

/-- Step counter for the look-ahead loops: a `for (let j = lo; j < stop;
j++)` loop runs exactly `stop - lo` times (truncated at zero), so the
remaining trip count is carried structurally. -/
def scanForFuel (arr : List JStr) (tgt : JStr) : Nat → Nat → Bool
  | _, 0 => false
  | j, fuel + 1 =>
    if arr.get? j == some tgt then true else scanForFuel arr tgt (j + 1) fuel

/-- The look-ahead loops `for (let j = lo; j < stop; j++) if (arr[j] === tgt)`
of `computeDiffWithAlignment`, returning whether a match was found. -/
def scanFor (arr : List JStr) (tgt : JStr) (j stop : Nat) : Bool :=
  scanForFuel arr tgt j (stop - j)

/-- Mutable state of the `while` loop in `computeDiffWithAlignment`:
the two output line arrays, the two diff sets, the cursors `i1`, `i2`,
`alignedIndex` and the `iterations` counter. -/
structure AlignSt where
  a1 : List JStr
  a2 : List JStr
  d1 : List Nat
  d2 : List Nat
  i1 : Nat
  i2 : Nat
  alignedIndex : Nat
  iterations : Nat
deriving DecidableEq

/-- The loop state before the first iteration. -/
def initSt : AlignSt := ⟨[], [], [], [], 0, 0, 0, 0⟩

/-- One pass of the `while` body of `computeDiffWithAlignment` (part_004
lines 171–241).  Returns the updated state and `true` to continue looping,
or `false` for the final `else` branch (`// Shouldn't reach here, but safety
break`), which runs `break` before `alignedIndex++`. -/
def alignBody (lines1 lines2 : List JStr) (st : AlignSt) : AlignSt × Bool :=
  let line1 := lines1.get? st.i1
  let line2 := lines2.get? st.i2
  let it := st.iterations + 1
  if jsTruthy line1 && jsTruthy line2 && line1 == line2 then
    ({ st with a1 := st.a1 ++ [line1.getD []], a2 := st.a2 ++ [line2.getD []],
               i1 := st.i1 + 1, i2 := st.i2 + 1,
               alignedIndex := st.alignedIndex + 1, iterations := it }, true)
  else if jsTruthy line1 && !jsTruthy line2 then
    ({ st with a1 := st.a1 ++ [line1.getD []], a2 := st.a2 ++ [[]],
               d1 := st.d1 ++ [st.alignedIndex],
               i1 := st.i1 + 1,
               alignedIndex := st.alignedIndex + 1, iterations := it }, true)
  else if !jsTruthy line1 && jsTruthy line2 then
    ({ st with a1 := st.a1 ++ [[]], a2 := st.a2 ++ [line2.getD []],
               d2 := st.d2 ++ [st.alignedIndex],
               i2 := st.i2 + 1,
               alignedIndex := st.alignedIndex + 1, iterations := it }, true)
  else if jsTruthy line1 && jsTruthy line2 then
    let s1 := line1.getD []
    let s2 := line2.getD []
    if scanFor lines2 s1 (st.i2 + 1) (min (st.i2 + 5) lines2.length) then
      ({ st with a1 := st.a1 ++ [[]], a2 := st.a2 ++ [s2],
                 d2 := st.d2 ++ [st.alignedIndex],
                 i2 := st.i2 + 1,
                 alignedIndex := st.alignedIndex + 1, iterations := it }, true)
    else if scanFor lines1 s2 (st.i1 + 1) (min (st.i1 + 5) lines1.length) then
      ({ st with a1 := st.a1 ++ [s1], a2 := st.a2 ++ [[]],
                 d1 := st.d1 ++ [st.alignedIndex],
                 i1 := st.i1 + 1,
                 alignedIndex := st.alignedIndex + 1, iterations := it }, true)
    else
      ({ st with a1 := st.a1 ++ [s1], a2 := st.a2 ++ [s2],
                 d1 := st.d1 ++ [st.alignedIndex], d2 := st.d2 ++ [st.alignedIndex],
                 i1 := st.i1 + 1, i2 := st.i2 + 1,
                 alignedIndex := st.alignedIndex + 1, iterations := it }, true)
  else
    ({ st with iterations := it }, false)

/-- The `while ((i1 < lines1.length || i2 < lines2.length) && iterations <
MAX_ITERATIONS)` loop.  The fuel argument carries the remaining iteration
budget `MAX_ITERATIONS - iterations`, so fuel exhaustion is exactly the
`iterations < MAX_ITERATIONS` guard failing. -/
def alignLoop (lines1 lines2 : List JStr) : Nat → AlignSt → AlignSt
  | 0, st => st
  | fuel + 1, st =>
    if st.i1 < lines1.length ∨ st.i2 < lines2.length then
      match alignBody lines1 lines2 st with
      | (st', true) => alignLoop lines1 lines2 fuel st'
      | (st', false) => st'
    else st

/-- `computeDiffWithAlignment` (part_004 lines 145–258): oversize guard,
greedy look-ahead loop with iteration cap `2 * max(len1, len2)`, and the
post-loop fallback to `computeSimpleDiff` when the cap was reached.  (The
`lines1Set` / `lines2Set` lookup sets built by the source are never read,
so they have no counterpart here.) -/
def computeDiffWithAlignment (text1 text2 : JStr) : DiffResult :=
  let lines1 := splitOnNl text1
  let lines2 := splitOnNl text2
  if lines1.length > 10000 ∨ lines2.length > 10000 then
    computeSimpleDiff text1 text2
  else
    let mx := max lines1.length lines2.length * 2
    let st := alignLoop lines1 lines2 mx initSt
    if st.iterations ≥ mx then
      computeSimpleDiff text1 text2
    else
      { alignedText1 := joinNl st.a1, alignedText2 := joinNl st.a2,
        diffLines1 := st.d1, diffLines2 := st.d2 }

/-! ## The search engine (`DiffViewer.tsx` imperative handle, `part_002`) -/

/-- One side's entry of the `SearchState` record of `DiffViewer.types.ts`. -/
structure SideSearchState where
  query : JStr
  currentTarget : Nat
  total : Nat
deriving DecidableEq

/-- The reset value `{ query: "", currentTarget: 0, total: 0 }`. -/
def clearedSide : SideSearchState := ⟨[], 0, 0⟩

/-- Per-character `toLowerCase`, the normalisation handed to
CodeMirror's `SearchCursor`. -/
def lowerStr (s : JStr) : JStr := s.map Char.toLower

/-- Whether `pat` occurs at the start of `s`. -/
def matchesAt : JStr → JStr → Bool
  | [], _ => true
  | _ :: _, [] => false
  | a :: p, b :: s => a == b && matchesAt p s

/-- Left-to-right scan for non-overlapping occurrences of `q` (assumed
non-empty) in the suffix `s` starting at absolute offset `pos`.  After a
match the scan resumes at the end of that match; the resumption is realised
structurally by skipping the next `q.length - 1` start positions. -/
def findMatchesAux (q : JStr) : JStr → Nat → Nat → List (Nat × Nat)
  | [], _, _ => []
  | c :: r, pos, 0 =>
    if matchesAt q (c :: r) then
      (pos, pos + q.length) :: findMatchesAux q r (pos + 1) (q.length - 1)
    else
      findMatchesAux q r (pos + 1) 0
  | _ :: r, pos, skip + 1 => findMatchesAux q r (pos + 1) skip

/-- All matches that a CodeMirror `SearchCursor` built with the
`x => x.toLowerCase()` normaliser yields via repeated `next()`:
case-insensitive, non-overlapping, in ascending position order. -/
def findMatches (doc q : JStr) : List (Nat × Nat) :=
  if q.isEmpty then [] else findMatchesAux (lowerStr q) (lowerStr doc) 0 0

/-- `searchInPreview` / `searchInPublished` of `DiffViewer.tsx` (lines
200–282 resp. 284–366; both bodies are identical up to the side), restricted
to their effect on the side's search state and returned count: an empty
(falsy) query resets the side and returns 0; otherwise the code stores the
query, sets `currentTarget` to 1 *before* counting, then counts the matches
into `total` and returns that count.  Scrolling and decoration dispatches
have no state of their own here. -/
def searchInPreview (doc query : JStr) : SideSearchState × Nat :=
  if query.isEmpty then (clearedSide, 0)
  else
    let total := (findMatches doc query).length
    ({ query := query, currentTarget := 1, total := total }, total)

/-- `findNextMatch` of `DiffViewer.tsx` (lines 368–427), restricted to its
effect on the side's state and returned boolean: no query or zero matches is
a failing no-op; otherwise `currentTarget` advances cyclically (from `>=
total` back to 1) and the call reports success. -/
def findNextMatchOp (st : SideSearchState) : SideSearchState × Bool :=
  if st.query.isEmpty || st.total == 0 then (st, false)
  else
    let nextTarget := if st.currentTarget ≥ st.total then 1 else st.currentTarget + 1
    ({ st with currentTarget := nextTarget }, true)

/-- `findPreviousMatch` of `DiffViewer.tsx` (lines 429–488): symmetric
wrap-around from 1 (or below) back to `total`. -/
def findPreviousMatchOp (st : SideSearchState) : SideSearchState × Bool :=
  if st.query.isEmpty || st.total == 0 then (st, false)
  else
    let prevTarget := if st.currentTarget ≤ 1 then st.total else st.currentTarget - 1
    ({ st with currentTarget := prevTarget }, true)

/-- `clearSearch` of `DiffViewer.tsx` (lines 490–525), per side: both sides
are reset to the cleared state. -/
def clearSearchOp : SideSearchState := clearedSide

/-- `searchInEditor` of `src/unnamed/part_002` (lines 90–105): a
whitespace-only query short-circuits to no matches, otherwise the
case-insensitive cursor scan runs. -/
def searchInEditor (doc query : JStr) : List (Nat × Nat) :=
  if (jsTrim query).isEmpty then [] else findMatches doc query

/-- State invariant a side's search data actually maintains (see the C7
theorems): an empty query means a fully cleared side; a stored non-empty
query means `total` counts its matches and `currentTarget` is at least 1
and either within `total` or exactly 1 — a zero-match search parks the
target at `1`, one above `total`. -/
def SInv (doc : JStr) (st : SideSearchState) : Prop :=
  (st.query = [] → st.currentTarget = 0 ∧ st.total = 0) ∧
  (st.query ≠ [] →
    st.total = (findMatches doc st.query).length ∧
    1 ≤ st.currentTarget ∧ (st.currentTarget ≤ st.total ∨ st.currentTarget = 1))

/-! ## The JSON normalizer (`editorUtils.ts` / `part_002`, `formatJson`)

`formatJson` calls the JavaScript built-ins `JSON.parse` and
`JSON.stringify(v, null, 2)`; both are modelled here over `List Char`.
Modelling choices for the external built-ins: JSON values store number
literals as their source text (IEEE-754 re-canonicalisation such as
`1.50 → 1.5` is not modelled; it does not affect the claims, which are
equations between runs of `formatJson`); object fields are kept as a
literal field list (JavaScript collapses duplicate keys and fronts
integer-like keys; both effects are stable under a second round trip);
`\uXXXX` escapes denoting UTF-16 surrogate halves are rejected rather than
decoded, since `List Char` holds Unicode scalars. -/

mutual
inductive Json where
  | null : Json
  | bool (b : Bool) : Json
  | num (lit : JStr) : Json
  | str (s : JStr) : Json
  | arr (elems : JsonList) : Json
  | obj (fields : JsonFields) : Json
inductive JsonList where
  | nil : JsonList
  | cons (hd : Json) (tl : JsonList) : JsonList
inductive JsonFields where
  | nil : JsonFields
  | cons (key : JStr) (val : Json) (tl : JsonFields) : JsonFields
end

deriving instance DecidableEq for Json, JsonList, JsonFields

/-- Whitespace the JSON grammar allows between tokens. -/
def isJsonWs (c : Char) : Bool :=
  c == ' ' || c == '\t' || c == '\n' || c == '\r'

/-- Skip inter-token whitespace. -/
def skipWs (s : JStr) : JStr := s.dropWhile isJsonWs

/-- ASCII decimal digit test, phrased on scalar values. -/
def isDig (c : Char) : Bool := 48 ≤ c.toNat && c.toNat ≤ 57

/-- Hexadecimal digit value, both cases accepted (as in `JSON.parse`). -/
def hexDigVal (c : Char) : Option Nat :=
  if isDig c then some (c.toNat - 48)
  else if 97 ≤ c.toNat ∧ c.toNat ≤ 102 then some (c.toNat - 87)
  else if 65 ≤ c.toNat ∧ c.toNat ≤ 70 then some (c.toNat - 55)
  else none

/-- The two-character escapes of JSON string literals. -/
def escPair (c : Char) : Option Char :=
  if c = '"' then some '"'
  else if c = '\\' then some '\\'
  else if c = '/' then some '/'
  else if c = 'b' then some '\x08'
  else if c = 'f' then some '\x0c'
  else if c = 'n' then some '\n'
  else if c = 'r' then some '\r'
  else if c = 't' then some '\t'
  else none

mutual
/-- Parse the body of a JSON string literal after the opening quote, up to
and including the closing quote; raw control characters are rejected, as
`JSON.parse` does.  The escape and `\\uXXXX` sub-steps are split into
mutually recursive helpers. -/
def parseStringBody : JStr → Option (JStr × JStr)
  | [] => none
  | c :: r =>
    if c = '"' then some ([], r)
    else if c = '\\' then parseEsc r
    else if c.toNat < 0x20 then none
    else (parseStringBody r).map fun p => (c :: p.1, p.2)
/-- One escape sequence after the backslash. -/
def parseEsc : JStr → Option (JStr × JStr)
  | [] => none
  | e :: r2 =>
    if e = 'u' then parseHex r2
    else do
      let ch ← escPair e
      let (cs, rest) ← parseStringBody r2
      some (ch :: cs, rest)
/-- Four hex digits of a `\\uXXXX` escape; surrogate halves are outside the
scalar-value model and rejected. -/
def parseHex : JStr → Option (JStr × JStr)
  | a :: b :: c2 :: d :: r3 => do
    let va ← hexDigVal a
    let vb ← hexDigVal b
    let vc ← hexDigVal c2
    let vd ← hexDigVal d
    let code := 4096 * va + 256 * vb + 16 * vc + vd
    if 0xd800 ≤ code ∧ code < 0xe000 then none
    else do
      let (cs, rest) ← parseStringBody r3
      some (Char.ofNat code :: cs, rest)
  | _ => none
end

/-- Characters that can continue a number literal token. -/
def isNumChar (c : Char) : Bool :=
  isDig c || c == '-' || c == '+' || c == '.' || c == 'e' || c == 'E'

/-- Characters that can start a number literal token. -/
def isNumStart (c : Char) : Bool := c == '-' || isDig c

/-- Integer part of the JSON number grammar: `0` or a nonzero digit followed
by digits.  Returns the remainder. -/
def numIntPart : JStr → Option JStr
  | [] => none
  | c :: r =>
    if c = '0' then some r
    else if isDig c then some (r.dropWhile isDig)
    else none

/-- A nonempty run of digits followed by the remainder. -/
def digTail : JStr → Option JStr
  | [] => none
  | d :: r2 => if isDig d then some ((d :: r2).dropWhile isDig) else none

/-- Optional fraction part `.digits`. -/
def numFrac : JStr → Option JStr
  | [] => some []
  | c :: r => if c = '.' then digTail r else some (c :: r)

/-- The sign-and-digits tail of an exponent part. -/
def expTail : JStr → Option JStr
  | [] => none
  | s :: r2 => if s = '+' ∨ s = '-' then digTail r2 else digTail (s :: r2)

/-- Optional exponent part `(e|E)(+|-)?digits`. -/
def numExp : JStr → Option JStr
  | [] => some []
  | c :: r => if c = 'e' ∨ c = 'E' then expTail r else some (c :: r)

/-- Strip an optional leading minus sign. -/
def numSign : JStr → JStr
  | [] => []
  | c :: r => if c = '-' then r else c :: r

/-- Whether `l` is exactly one valid JSON number literal. -/
def isValidNum (l : JStr) : Bool :=
  match numIntPart (numSign l) with
  | none => false
  | some r2 =>
    match numFrac r2 with
    | none => false
    | some r3 =>
      match numExp r3 with
      | none => false
      | some r4 => r4.isEmpty

/-- Consume an expected literal tail (the rest of `null`/`true`/`false`). -/
def stripPre : JStr → JStr → Option JStr
  | [], s => some s
  | _ :: _, [] => none
  | p :: ps, c :: s => if c = p then stripPre ps s else none

mutual
/-- Recursive-descent `JSON.parse` over `List Char`, with a fuel argument
that strictly decreases on every recursive call; `jsonParse` passes one more
than the input length, which a value always fits in because every value and
every list step consumes at least one character. -/
def parseValue : Nat → JStr → Option (Json × JStr)
  | 0, _ => none
  | fuel + 1, s =>
    match skipWs s with
    | [] => none
    | c :: r =>
      if c = 'n' then
        match stripPre ['u', 'l', 'l'] r with
        | some r2 => some (Json.null, r2)
        | none => none
      else if c = 't' then
        match stripPre ['r', 'u', 'e'] r with
        | some r2 => some (Json.bool true, r2)
        | none => none
      else if c = 'f' then
        match stripPre ['a', 'l', 's', 'e'] r with
        | some r2 => some (Json.bool false, r2)
        | none => none
      else if c = '"' then
        match parseStringBody r with
        | some (cs, r2) => some (Json.str cs, r2)
        | none => none
      else if c = '[' then
        if (skipWs r).head? == some ']' then some (Json.arr JsonList.nil, (skipWs r).tail)
        else
          match parseItems fuel r with
          | some (l, r2) => some (Json.arr l, r2)
          | none => none
      else if c = '{' then
        if (skipWs r).head? == some '}' then some (Json.obj JsonFields.nil, (skipWs r).tail)
        else
          match parseFields fuel r with
          | some (l, r2) => some (Json.obj l, r2)
          | none => none
      else if isNumStart c then
        let lit := (c :: r).takeWhile isNumChar
        if isValidNum lit then some (Json.num lit, (c :: r).dropWhile isNumChar)
        else none
      else none
/-- One-or-more comma-separated array items up to the closing bracket. -/
def parseItems : Nat → JStr → Option (JsonList × JStr)
  | 0, _ => none
  | fuel + 1, s =>
    match parseValue fuel s with
    | none => none
    | some (v, r) =>
      match skipWs r with
      | [] => none
      | c :: r2 =>
        if c = ',' then
          match parseItems fuel r2 with
          | some (tl, r3) => some (JsonList.cons v tl, r3)
          | none => none
        else if c = ']' then some (JsonList.cons v JsonList.nil, r2)
        else none
/-- One-or-more `"key": value` members up to the closing brace. -/
def parseFields : Nat → JStr → Option (JsonFields × JStr)
  | 0, _ => none
  | fuel + 1, s =>
    match skipWs s with
    | [] => none
    | c0 :: r =>
      if c0 = '"' then
        match parseStringBody r with
        | none => none
        | some (k, r1) =>
          match skipWs r1 with
          | [] => none
          | c1 :: r2 =>
            if c1 = ':' then
              match parseValue fuel r2 with
              | none => none
              | some (v, r3) =>
                match skipWs r3 with
                | [] => none
                | c2 :: r4 =>
                  if c2 = ',' then
                    match parseFields fuel r4 with
                    | some (tl, r5) => some (JsonFields.cons k v tl, r5)
                    | none => none
                  else if c2 = '}' then some (JsonFields.cons k v JsonFields.nil, r4)
                  else none
            else none
      else none
end

/-- `JSON.parse`: parse one value, then allow only trailing whitespace. -/
def jsonParse (s : JStr) : Option Json :=
  match parseValue (s.length + 1) s with
  | some (v, r) => if (skipWs r).isEmpty then some v else none
  | none => none

/-- Serializer-side hexadecimal digit (lowercase, as `JSON.stringify`). -/
def hexDig (n : Nat) : Char :=
  if n < 10 then Char.ofNat (48 + n) else Char.ofNat (87 + n)

/-- Escaping of one character inside a `JSON.stringify` string literal. -/
def escChar (c : Char) : JStr :=
  if c = '"' then ['\\', '"']
  else if c = '\\' then ['\\', '\\']
  else if c = '\x08' then ['\\', 'b']
  else if c = '\t' then ['\\', 't']
  else if c = '\n' then ['\\', 'n']
  else if c = '\x0c' then ['\\', 'f']
  else if c = '\r' then ['\\', 'r']
  else if c.toNat < 0x20 then
    ['\\', 'u', '0', '0', hexDig (c.toNat / 16), hexDig (c.toNat % 16)]
  else [c]

/-- Escaped string body followed by the closing quote. -/
def escBody : JStr → JStr
  | [] => ['"']
  | c :: t => escChar c ++ escBody t

/-- A serialized JSON string literal. -/
def serStr (s : JStr) : JStr := '"' :: escBody s

/-- An indentation gap of `n` spaces. -/
def spaces (n : Nat) : JStr := List.replicate n ' '

mutual
/-- `JSON.stringify(v, null, 2)` over `List Char`: `ind` is the indentation
of the surrounding context; a value never emits its own leading indent (the
container does), and closing brackets are indented at `ind`. -/
def serVal (ind : Nat) : Json → JStr
  | Json.null => ['n', 'u', 'l', 'l']
  | Json.bool true => ['t', 'r', 'u', 'e']
  | Json.bool false => ['f', 'a', 'l', 's', 'e']
  | Json.num lit => lit
  | Json.str s => serStr s
  | Json.arr JsonList.nil => ['[', ']']
  | Json.arr (JsonList.cons h t) =>
    '[' :: '\n' :: (serItems (ind + 2) (JsonList.cons h t) ++
      '\n' :: (spaces ind ++ [']']))
  | Json.obj JsonFields.nil => ['{', '}']
  | Json.obj (JsonFields.cons k v t) =>
    '{' :: '\n' :: (serFields (ind + 2) (JsonFields.cons k v t) ++
      '\n' :: (spaces ind ++ ['}']))
/-- Array items, each on its own line at indent `ind`, comma-separated. -/
def serItems (ind : Nat) : JsonList → JStr
  | JsonList.nil => []
  | JsonList.cons h JsonList.nil => spaces ind ++ serVal ind h
  | JsonList.cons h (JsonList.cons h2 t) =>
    spaces ind ++ serVal ind h ++
      ',' :: '\n' :: serItems ind (JsonList.cons h2 t)
/-- Object members `"key": value`, one per line at indent `ind`. -/
def serFields (ind : Nat) : JsonFields → JStr
  | JsonFields.nil => []
  | JsonFields.cons k v JsonFields.nil =>
    spaces ind ++ serStr k ++ ':' :: ' ' :: serVal ind v
  | JsonFields.cons k v (JsonFields.cons k2 v2 t) =>
    spaces ind ++ serStr k ++ ':' :: ' ' :: serVal ind v ++
      ',' :: '\n' :: serFields ind (JsonFields.cons k2 v2 t)
end

mutual
/-- Well-formedness of a model JSON value: number literals are valid JSON
number tokens.  Every value `jsonParse` produces satisfies this. -/
def wfV : Json → Bool
  | Json.null => true
  | Json.bool _ => true
  | Json.num lit => isValidNum lit
  | Json.str _ => true
  | Json.arr l => wfL l
  | Json.obj l => wfF l
/-- Well-formedness of an item list. -/
def wfL : JsonList → Bool
  | JsonList.nil => true
  | JsonList.cons h t => wfV h && wfL t
/-- Well-formedness of a field list. -/
def wfF : JsonFields → Bool
  | JsonFields.nil => true
  | JsonFields.cons _ v t => wfV v && wfF t
end

mutual
/-- Node-count size of a value, used as the fuel bound of the parser. -/
def sizeV : Json → Nat
  | Json.null => 1
  | Json.bool _ => 1
  | Json.num _ => 1
  | Json.str _ => 1
  | Json.arr l => sizeL l + 1
  | Json.obj l => sizeF l + 1
/-- Node-count size of an item list. -/
def sizeL : JsonList → Nat
  | JsonList.nil => 1
  | JsonList.cons h t => sizeV h + sizeL t + 1
/-- Node-count size of a field list. -/
def sizeF : JsonFields → Nat
  | JsonFields.nil => 1
  | JsonFields.cons _ v t => sizeV v + sizeF t + 1
end

/-- The dynamically-typed argument of `formatJson`: a string, a non-null
object (a structured JSON value in this model), or any other primitive
carried as its `String(x || "")` display text. -/
inductive FormatInput where
  | str (s : JStr) : FormatInput
  | obj (v : Json) : FormatInput
  | prim (disp : JStr) : FormatInput

/-- Strip all trailing newlines, for `result.replace(/\n*$/, "\n")`. -/
def dropEndNl (r : JStr) : JStr := (r.reverse.dropWhile (· == '\n')).reverse

/-- The post-processing tail of `formatJson`: normalize line endings, strip
trailing whitespace from every line, and end with exactly one newline. -/
def postProcess (r : JStr) : JStr :=
  let r1 := normNl r
  let r2 := joinNl ((splitOnNl r1).map jsTrimEnd)
  dropEndNl r2 ++ ['\n']

/-- `formatJson` (`editorUtils.ts` lines 27–62 and the identical copy in
`part_002` lines 131–169): strings are newline-normalized, trimmed and
parsed (the catch branch returns the *original* argument, since
`String(jsonData || "")` of a string is that string); objects are
stringified directly; other primitives return their display text. -/
def formatJson : FormatInput → JStr
  | FormatInput.str s =>
    match jsonParse (jsTrim (normNl s)) with
    | some v => postProcess (serVal 0 v)
    | none => s
  | FormatInput.obj v => postProcess (serVal 0 v)
  | FormatInput.prim disp => disp

/-- `formatJson` restricted to string inputs — the `normalize` of the spec. -/
def formatJsonStr (s : JStr) : JStr := formatJson (FormatInput.str s)

/-- A remainder that cannot extend a number literal token: empty, or starting
with a character outside the number-token alphabet. -/
def numStop : JStr → Bool
  | [] => true
  | c :: _ => !isNumChar c

/-- What follows an array item in `serItems`: nothing for the last item, a
comma and newline plus the remaining items otherwise. -/
def itemsSep (ind : Nat) : JsonList → JStr
  | JsonList.nil => []
  | JsonList.cons h2 t2 => ',' :: '\n' :: serItems ind (JsonList.cons h2 t2)

/-- What follows an object member in `serFields`. -/
def fieldsSep (ind : Nat) : JsonFields → JStr
  | JsonFields.nil => []
  | JsonFields.cons k2 v2 t2 => ',' :: '\n' :: serFields ind (JsonFields.cons k2 v2 t2)

/-- Prefix the first line of a line list (the list is conceptually nonempty;
an empty list gets the prefix as its only line). -/
def consHead (p : JStr) : List JStr → List JStr
  | [] => [p]
  | g :: gs => (p ++ g) :: gs

/-- Append a suffix to the last line of a line list. -/
def addLast (suf : JStr) : List JStr → List JStr
  | [] => [suf]
  | [g] => [g ++ suf]
  | g :: g2 :: gs => g :: addLast suf (g2 :: gs)

mutual
/-- The lines of `serVal ind v` (split at the structural newlines). -/
def linesV (ind : Nat) : Json → List JStr
  | Json.null => [['n', 'u', 'l', 'l']]
  | Json.bool true => [['t', 'r', 'u', 'e']]
  | Json.bool false => [['f', 'a', 'l', 's', 'e']]
  | Json.num lit => [lit]
  | Json.str s => [serStr s]
  | Json.arr JsonList.nil => [['[', ']']]
  | Json.arr (JsonList.cons h t) =>
    ['['] :: (linesL (ind + 2) (JsonList.cons h t) ++ [spaces ind ++ [']']])
  | Json.obj JsonFields.nil => [['{', '}']]
  | Json.obj (JsonFields.cons k v t) =>
    ['{'] :: (linesF (ind + 2) (JsonFields.cons k v t) ++ [spaces ind ++ ['}']])
/-- The lines of `serItems ind l`. -/
def linesL (ind : Nat) : JsonList → List JStr
  | JsonList.nil => []
  | JsonList.cons h JsonList.nil => consHead (spaces ind) (linesV ind h)
  | JsonList.cons h (JsonList.cons h2 t) =>
    addLast [','] (consHead (spaces ind) (linesV ind h)) ++
      linesL ind (JsonList.cons h2 t)
/-- The lines of `serFields ind l`. -/
def linesF (ind : Nat) : JsonFields → List JStr
  | JsonFields.nil => []
  | JsonFields.cons k v JsonFields.nil =>
    consHead (spaces ind ++ serStr k ++ [':', ' ']) (linesV ind v)
  | JsonFields.cons k v (JsonFields.cons k2 v2 t) =>
    addLast [','] (consHead (spaces ind ++ serStr k ++ [':', ' ']) (linesV ind v)) ++
      linesF ind (JsonFields.cons k2 v2 t)
end

/-- A well-behaved output line: no line break inside, and it does not end in
a character that `trimEnd` would strip. -/
def lineOk (g : JStr) : Prop :=
  '\n' ∉ g ∧ '\r' ∉ g ∧ ∀ x, g.getLast? = some x → isJsTrimWs x = false

/-- A well-behaved line list: every line is `lineOk` and the first and last
lines are nonempty. -/
def linesOk (ls : List JStr) : Prop :=
  (∀ g ∈ ls, lineOk g) ∧ (∀ g, ls.head? = some g → g ≠ []) ∧
    ∀ g, ls.getLast? = some g → g ≠ []

/-! ## Lemmas: line splitting and joining -/

theorem splitOnNl_ne_nil (s : JStr) : splitOnNl s ≠ [] := by
  match s with
  | [] => simp [splitOnNl]
  | c :: t =>
    simp only [splitOnNl]
    split
    · simp
    · split <;> simp

theorem splitOnNl_cons_ne (c : Char) (t : JStr) (hc : c ≠ '\n') :
    ∃ g gs, splitOnNl t = g :: gs ∧ splitOnNl (c :: t) = (c :: g) :: gs := by
  cases hG : splitOnNl t with
  | nil => exact absurd hG (splitOnNl_ne_nil t)
  | cons g gs =>
    refine ⟨g, gs, rfl, ?_⟩
    simp [splitOnNl, hc, hG]

theorem no_nl_of_mem_splitOnNl (s : JStr) : ∀ g ∈ splitOnNl s, '\n' ∉ g := by
  induction s with
  | nil =>
    intro g hg
    simp [splitOnNl] at hg
    simp [hg]
  | cons c t ih =>
    intro g hg
    by_cases hc : c = '\n'
    · subst hc
      simp only [splitOnNl, if_pos rfl] at hg
      rcases List.mem_cons.mp hg with h | h
      · simp [h]
      · exact ih g h
    · obtain ⟨g0, gs, hG, hE⟩ := splitOnNl_cons_ne c t hc
      rw [hE] at hg
      rcases List.mem_cons.mp hg with h | h
      · subst h
        intro hmem
        rcases List.mem_cons.mp hmem with h1 | h1
        · exact hc h1.symm
        · exact ih g0 (hG ▸ List.mem_cons_self g0 gs) h1
      · exact ih g (hG ▸ List.mem_cons_of_mem g0 h)

theorem splitOnNl_no_nl (l : JStr) (h : '\n' ∉ l) : splitOnNl l = [l] := by
  induction l with
  | nil => simp [splitOnNl]
  | cons c t ih =>
    have hc : c ≠ '\n' := fun hcc => h (hcc ▸ List.mem_cons_self c t)
    obtain ⟨g, gs, hG, hE⟩ := splitOnNl_cons_ne c t hc
    have ht : splitOnNl t = [t] := ih (fun hm => h (List.mem_cons_of_mem c hm))
    rw [ht] at hG
    cases hG
    simpa using hE

theorem splitOnNl_append_nl (l r : JStr) (h : '\n' ∉ l) :
    splitOnNl (l ++ '\n' :: r) = l :: splitOnNl r := by
  induction l with
  | nil => simp [splitOnNl]
  | cons c t ih =>
    have hc : c ≠ '\n' := fun hcc => h (hcc ▸ List.mem_cons_self c t)
    have ht : splitOnNl (t ++ '\n' :: r) = t :: splitOnNl r :=
      ih (fun hm => h (List.mem_cons_of_mem c hm))
    obtain ⟨g, gs, hG, hE⟩ := splitOnNl_cons_ne c (t ++ '\n' :: r) hc
    rw [ht] at hG
    cases hG
    simpa using hE

theorem splitOnNl_joinNl (ls : List JStr) (h : ∀ g ∈ ls, '\n' ∉ g) (hne : ls ≠ []) :
    splitOnNl (joinNl ls) = ls := by
  induction ls with
  | nil => exact absurd rfl hne
  | cons l rest ih =>
    cases rest with
    | nil =>
      simp only [joinNl]
      exact splitOnNl_no_nl l (h l (List.mem_cons_self l []))
    | cons l2 rest2 =>
      have hj : joinNl (l :: l2 :: rest2) = l ++ '\n' :: joinNl (l2 :: rest2) := rfl
      rw [hj, splitOnNl_append_nl l _ (h l (List.mem_cons_self l _))]
      rw [ih (fun g hg => h g (List.mem_cons_of_mem l hg)) (by simp)]

theorem length_splitOnNl_pos (s : JStr) : 0 < (splitOnNl s).length :=
  List.length_pos.mpr (splitOnNl_ne_nil s)

/-! ## Lemmas: the aligner loop -/

theorem truthy_get (l : List JStr) (i : Nat) (h : jsTruthy (l.get? i) = true) :
    i < l.length ∧ (l.get? i).getD [] ∈ l := by
  cases hg : l.get? i with
  | none => rw [hg] at h; simp [jsTruthy] at h
  | some s =>
    constructor
    · by_contra hlt
      rw [List.get?_eq_none.mpr (Nat.le_of_not_lt hlt)] at hg
      cases hg
    · simpa using List.get?_mem hg

theorem alignBody_false (l1 l2 : List JStr) (st st' : AlignSt)
    (h : alignBody l1 l2 st = (st', false)) :
    st' = { st with iterations := st.iterations + 1 } := by
  simp only [alignBody] at h
  split_ifs at h <;> simp_all

theorem alignBody_true (l1 l2 : List JStr) (st st' : AlignSt)
    (h : alignBody l1 l2 st = (st', true)) :
    st'.a1.length = st.a1.length + 1 ∧
    st'.a2.length = st.a2.length + 1 ∧
    st'.iterations = st.iterations + 1 ∧
    st.i1 + st.i2 + 1 ≤ st'.i1 + st'.i2 ∧
    (st'.i1 = st.i1 ∨ (st'.i1 = st.i1 + 1 ∧ st.i1 < l1.length)) ∧
    (st'.i2 = st.i2 ∨ (st'.i2 = st.i2 + 1 ∧ st.i2 < l2.length)) ∧
    (∀ g ∈ st'.a1, g ∈ st.a1 ∨ g = [] ∨ g ∈ l1) ∧
    (∀ g ∈ st'.a2, g ∈ st.a2 ∨ g = [] ∨ g ∈ l2) := by
  simp only [alignBody] at h
  split_ifs at h with hc1 hc2 hc3 hc4 hc5 hc6
  · -- lines match exactly
    injection h with hA hB
    subst hA
    simp only [Bool.and_eq_true] at hc1
    have t1 := truthy_get l1 st.i1 hc1.1.1
    have t2 := truthy_get l2 st.i2 hc1.1.2
    refine ⟨by simp, by simp, rfl, by simp; omega, by simp [t1.1], by simp [t2.1], ?_, ?_⟩ <;>
      (intro g hg; simp only [List.mem_append, List.mem_singleton] at hg;
       rcases hg with hg | hg)
    · exact Or.inl hg
    · exact Or.inr (Or.inr (hg ▸ t1.2))
    · exact Or.inl hg
    · exact Or.inr (Or.inr (hg ▸ t2.2))
  · -- only document 1 has a truthy line
    injection h with hA hB
    subst hA
    simp only [Bool.and_eq_true] at hc2
    have t1 := truthy_get l1 st.i1 hc2.1
    refine ⟨by simp, by simp, rfl, by simp; omega, by simp [t1.1], by simp, ?_, ?_⟩ <;>
      (intro g hg; simp only [List.mem_append, List.mem_singleton] at hg;
       rcases hg with hg | hg)
    · exact Or.inl hg
    · exact Or.inr (Or.inr (hg ▸ t1.2))
    · exact Or.inl hg
    · exact Or.inr (Or.inl hg)
  · -- only document 2 has a truthy line
    injection h with hA hB
    subst hA
    simp only [Bool.and_eq_true] at hc3
    have t2 := truthy_get l2 st.i2 hc3.2
    refine ⟨by simp, by simp, rfl, by simp; omega, by simp, by simp [t2.1], ?_, ?_⟩ <;>
      (intro g hg; simp only [List.mem_append, List.mem_singleton] at hg;
       rcases hg with hg | hg)
    · exact Or.inl hg
    · exact Or.inr (Or.inl hg)
    · exact Or.inl hg
    · exact Or.inr (Or.inr (hg ▸ t2.2))
  · -- look-ahead found line1 later in lines2: insert a gap on side 1
    injection h with hA hB
    subst hA
    simp only [Bool.and_eq_true] at hc4
    have t2 := truthy_get l2 st.i2 hc4.2
    refine ⟨by simp, by simp, rfl, by simp; omega, by simp, by simp [t2.1], ?_, ?_⟩ <;>
      (intro g hg; simp only [List.mem_append, List.mem_singleton] at hg;
       rcases hg with hg | hg)
    · exact Or.inl hg
    · exact Or.inr (Or.inl hg)
    · exact Or.inl hg
    · exact Or.inr (Or.inr (hg ▸ t2.2))
  · -- look-ahead found line2 later in lines1: insert a gap on side 2
    injection h with hA hB
    subst hA
    simp only [Bool.and_eq_true] at hc4
    have t1 := truthy_get l1 st.i1 hc4.1
    refine ⟨by simp, by simp, rfl, by simp; omega, by simp [t1.1], by simp, ?_, ?_⟩ <;>
      (intro g hg; simp only [List.mem_append, List.mem_singleton] at hg;
       rcases hg with hg | hg)
    · exact Or.inl hg
    · exact Or.inr (Or.inr (hg ▸ t1.2))
    · exact Or.inl hg
    · exact Or.inr (Or.inl hg)
  · -- genuinely different lines: modification row
    injection h with hA hB
    subst hA
    simp only [Bool.and_eq_true] at hc4
    have t1 := truthy_get l1 st.i1 hc4.1
    have t2 := truthy_get l2 st.i2 hc4.2
    refine ⟨by simp, by simp, rfl, by simp; omega, by simp [t1.1], by simp [t2.1], ?_, ?_⟩ <;>
      (intro g hg; simp only [List.mem_append, List.mem_singleton] at hg;
       rcases hg with hg | hg)
    · exact Or.inl hg
    · exact Or.inr (Or.inr (hg ▸ t1.2))
    · exact Or.inl hg
    · exact Or.inr (Or.inr (hg ▸ t2.2))
  · -- safety break: contradicts the `true` continuation flag
    injection h with hA hB
    cases hB

theorem alignLoop_out (l1 l2 : List JStr)
    (hl1 : ∀ g ∈ l1, '\n' ∉ g) (hl2 : ∀ g ∈ l2, '\n' ∉ g) :
    ∀ (fuel : Nat) (st : AlignSt),
      st.a1.length = st.a2.length →
      st.a1.length ≤ st.iterations →
      st.iterations ≤ st.i1 + st.i2 →
      st.i1 ≤ l1.length → st.i2 ≤ l2.length →
      (∀ g ∈ st.a1, '\n' ∉ g) → (∀ g ∈ st.a2, '\n' ∉ g) →
      (alignLoop l1 l2 fuel st).a1.length = (alignLoop l1 l2 fuel st).a2.length ∧
      (alignLoop l1 l2 fuel st).a1.length ≤ (alignLoop l1 l2 fuel st).iterations ∧
      (alignLoop l1 l2 fuel st).iterations ≤ l1.length + l2.length ∧
      (∀ g ∈ (alignLoop l1 l2 fuel st).a1, '\n' ∉ g) ∧
      (∀ g ∈ (alignLoop l1 l2 fuel st).a2, '\n' ∉ g) := by
  intro fuel
  induction fuel with
  | zero =>
    intro st h1 h2 h3 h4 h5 h6 h7
    simp only [alignLoop]
    exact ⟨h1, h2, by omega, h6, h7⟩
  | succ n ih =>
    intro st h1 h2 h3 h4 h5 h6 h7
    rw [alignLoop]
    split
    · rcases hB : alignBody l1 l2 st with ⟨st', c⟩
      cases c with
      | true =>
        simp only [hB]
        obtain ⟨b1, b2, b3, b4, b5, b6, b7, b8⟩ := alignBody_true l1 l2 st st' hB
        refine ih st' (by omega) (by omega) (by omega) (by omega) (by omega) ?_ ?_
        · intro g hg
          rcases b7 g hg with h | h | h
          · exact h6 g h
          · simp [h]
          · exact hl1 g h
        · intro g hg
          rcases b8 g hg with h | h | h
          · exact h7 g h
          · simp [h]
          · exact hl2 g h
      | false =>
        simp only [hB]
        have hst := alignBody_false l1 l2 st st' hB
        subst hst
        rename_i hguard
        exact ⟨h1, by simpa using Nat.le_succ_of_le h2, by simp; omega, h6, h7⟩
    · exact ⟨h1, h2, by omega, h6, h7⟩

theorem scanForFuel_iff (arr : List JStr) (tgt : JStr) :
    ∀ fuel j, scanForFuel arr tgt j fuel = true ↔
      ∃ k, j ≤ k ∧ k < j + fuel ∧ arr.get? k = some tgt := by
  intro fuel
  induction fuel with
  | zero =>
    intro j
    rw [scanForFuel]
    constructor
    · intro h; cases h
    · rintro ⟨k, hk1, hk2, -⟩; omega
  | succ n ih =>
    intro j
    rw [scanForFuel]
    by_cases hEq : (arr.get? j == some tgt) = true
    · rw [if_pos hEq]
      simp only [true_iff]
      exact ⟨j, Nat.le_refl j, by omega, by simpa using hEq⟩
    · rw [if_neg hEq]
      rw [ih (j + 1)]
      constructor
      · rintro ⟨k, hk1, hk2, hk3⟩
        exact ⟨k, by omega, by omega, hk3⟩
      · rintro ⟨k, hk1, hk2, hk3⟩
        refine ⟨k, ?_, by omega, hk3⟩
        rcases Nat.eq_or_lt_of_le hk1 with h | h
        · subst h
          exact absurd (by simpa using hk3) hEq
        · omega

theorem scanFor_iff (arr : List JStr) (tgt : JStr) :
    ∀ j stop, scanFor arr tgt j stop = true ↔
      ∃ k, j ≤ k ∧ k < stop ∧ arr.get? k = some tgt := by
  intro j stop
  unfold scanFor
  rw [scanForFuel_iff]
  constructor
  · rintro ⟨k, hk1, hk2, hk3⟩
    exact ⟨k, hk1, by omega, hk3⟩
  · rintro ⟨k, hk1, hk2, hk3⟩
    exact ⟨k, hk1, by omega, hk3⟩

/-- Unfolding helper: oversized inputs short-circuit to `computeSimpleDiff`. -/
theorem computeDiff_oversize (t1 t2 : JStr)
    (h : 10000 < (splitOnNl t1).length ∨ 10000 < (splitOnNl t2).length) :
    computeDiffWithAlignment t1 t2 = computeSimpleDiff t1 t2 := by
  simp only [computeDiffWithAlignment]
  rw [if_pos h]

/-- Unfolding helper: within the size guard the result is the loop output,
or `computeSimpleDiff` when the iteration cap was reached. -/
theorem computeDiff_inbound (t1 t2 : JStr)
    (h1 : (splitOnNl t1).length ≤ 10000) (h2 : (splitOnNl t2).length ≤ 10000) :
    computeDiffWithAlignment t1 t2 =
      (if (alignLoop (splitOnNl t1) (splitOnNl t2)
            (max (splitOnNl t1).length (splitOnNl t2).length * 2) initSt).iterations ≥
            max (splitOnNl t1).length (splitOnNl t2).length * 2 then
        computeSimpleDiff t1 t2
      else
        { alignedText1 := joinNl (alignLoop (splitOnNl t1) (splitOnNl t2)
            (max (splitOnNl t1).length (splitOnNl t2).length * 2) initSt).a1,
          alignedText2 := joinNl (alignLoop (splitOnNl t1) (splitOnNl t2)
            (max (splitOnNl t1).length (splitOnNl t2).length * 2) initSt).a2,
          diffLines1 := (alignLoop (splitOnNl t1) (splitOnNl t2)
            (max (splitOnNl t1).length (splitOnNl t2).length * 2) initSt).d1,
          diffLines2 := (alignLoop (splitOnNl t1) (splitOnNl t2)
            (max (splitOnNl t1).length (splitOnNl t2).length * 2) initSt).d2 }) := by
  simp only [computeDiffWithAlignment]
  rw [if_neg (by omega)]

/-- The final-state facts of the aligner loop, instantiated at the initial
state.  The iteration count never exceeds `len1 + len2`, both output arrays
have equal length bounded by the iteration count, and output lines are
newline-free. -/
theorem alignLoop_init_out (t1 t2 : JStr) (fuel : Nat) :
    (alignLoop (splitOnNl t1) (splitOnNl t2) fuel initSt).a1.length =
      (alignLoop (splitOnNl t1) (splitOnNl t2) fuel initSt).a2.length ∧
    (alignLoop (splitOnNl t1) (splitOnNl t2) fuel initSt).a1.length ≤
      (alignLoop (splitOnNl t1) (splitOnNl t2) fuel initSt).iterations ∧
    (alignLoop (splitOnNl t1) (splitOnNl t2) fuel initSt).iterations ≤
      (splitOnNl t1).length + (splitOnNl t2).length ∧
    (∀ g ∈ (alignLoop (splitOnNl t1) (splitOnNl t2) fuel initSt).a1, '\n' ∉ g) ∧
    (∀ g ∈ (alignLoop (splitOnNl t1) (splitOnNl t2) fuel initSt).a2, '\n' ∉ g) :=
  alignLoop_out (splitOnNl t1) (splitOnNl t2)
    (no_nl_of_mem_splitOnNl t1) (no_nl_of_mem_splitOnNl t2) fuel initSt
    rfl (Nat.le_refl 0) (Nat.le_refl 0) (Nat.zero_le _) (Nat.zero_le _)
    (by simp [initSt]) (by simp [initSt])

/-- Concrete line count of the 10001-line oversize witness input. -/
theorem length_splitOnNl_big :
    (splitOnNl (joinNl (List.replicate 10001 (['a'] : JStr)))).length = 10001 := by
  rw [splitOnNl_joinNl]
  · exact List.length_replicate 10001 ['a']
  · intro g hg
    rw [List.eq_of_mem_replicate hg]
    simp
  · intro hnil
    have hlen := congrArg List.length hnil
    rw [List.length_replicate, List.length_nil] at hlen
    omega

/-! ## Lemmas: search navigation -/

theorem findNextMatchOp_run (st : SideSearchState) (hq : st.query ≠ [])
    (ht : st.total ≠ 0) :
    findNextMatchOp st =
      ({ st with currentTarget :=
          if st.currentTarget ≥ st.total then 1 else st.currentTarget + 1 }, true) := by
  unfold findNextMatchOp
  rw [if_neg]
  simp only [Bool.or_eq_true, List.isEmpty_iff, beq_iff_eq]
  rintro (h | h)
  · exact hq h
  · exact ht h

theorem findPreviousMatchOp_run (st : SideSearchState) (hq : st.query ≠ [])
    (ht : st.total ≠ 0) :
    findPreviousMatchOp st =
      ({ st with currentTarget :=
          if st.currentTarget ≤ 1 then st.total else st.currentTarget - 1 }, true) := by
  unfold findPreviousMatchOp
  rw [if_neg]
  simp only [Bool.or_eq_true, List.isEmpty_iff, beq_iff_eq]
  rintro (h | h)
  · exact hq h
  · exact ht h

theorem nextIter (k : Nat) : ∀ st : SideSearchState, st.query ≠ [] →
    1 ≤ st.currentTarget → st.currentTarget ≤ st.total →
    (fun s => (findNextMatchOp s).1)^[k] st =
      { st with currentTarget := (st.currentTarget - 1 + k) % st.total + 1 } := by
  induction k with
  | zero =>
    intro st hq h1 h2
    have harg : (st.currentTarget - 1 + 0) % st.total + 1 = st.currentTarget := by
      rw [Nat.add_zero, Nat.mod_eq_of_lt (by omega)]
      omega
    rw [Function.iterate_zero, harg]
    rfl
  | succ k ih =>
    intro st hq h1 h2
    rw [Function.iterate_succ_apply, findNextMatchOp_run st hq (by omega)]
    dsimp only
    by_cases hge : st.currentTarget ≥ st.total
    · rw [if_pos hge]
      rw [ih { st with currentTarget := 1 } hq (by simp) (by simp; omega)]
      have harg : st.currentTarget - 1 + (k + 1) = st.total + k := by omega
      simp only [harg, Nat.add_mod_left]
      simp
    · rw [if_neg hge]
      rw [ih { st with currentTarget := st.currentTarget + 1 } hq (by simp)
        (by simp; omega)]
      have harg : st.currentTarget - 1 + (k + 1) = st.currentTarget + 1 - 1 + k := by omega
      simp only [harg]

theorem prevIter (k : Nat) : ∀ st : SideSearchState, st.query ≠ [] →
    1 ≤ st.currentTarget → st.currentTarget ≤ st.total →
    (fun s => (findPreviousMatchOp s).1)^[k] st =
      { st with currentTarget :=
          (st.currentTarget - 1 + k * (st.total - 1)) % st.total + 1 } := by
  induction k with
  | zero =>
    intro st hq h1 h2
    have harg : (st.currentTarget - 1 + 0 * (st.total - 1)) % st.total + 1 =
        st.currentTarget := by
      rw [Nat.zero_mul, Nat.add_zero, Nat.mod_eq_of_lt (by omega)]
      omega
    rw [Function.iterate_zero, harg]
    rfl
  | succ k ih =>
    intro st hq h1 h2
    rw [Function.iterate_succ_apply, findPreviousMatchOp_run st hq (by omega)]
    dsimp only
    by_cases hle : st.currentTarget ≤ 1
    · rw [if_pos hle]
      rw [ih { st with currentTarget := st.total } hq (by simp; omega) (by simp)]
      have harg : st.total - 1 + k * (st.total - 1) = (k + 1) * (st.total - 1) := by
        rw [Nat.succ_mul]
        omega
      have harg2 : st.currentTarget - 1 + (k + 1) * (st.total - 1) =
          (k + 1) * (st.total - 1) := by
        have : st.currentTarget = 1 := by omega
        rw [this]
        omega
      simp only [harg, harg2]
    · rw [if_neg hle]
      rw [ih { st with currentTarget := st.currentTarget - 1 } hq (by simp; omega)
        (by simp; omega)]
      have hmul : (k + 1) * (st.total - 1) = k * (st.total - 1) + (st.total - 1) := by
        rw [Nat.succ_mul]
      have harg : st.currentTarget - 1 + (k + 1) * (st.total - 1) =
          st.currentTarget - 1 - 1 + k * (st.total - 1) + st.total := by
        rw [hmul]
        omega
      simp only [harg, Nat.add_mod_right]

theorem jsTrim_nil_of_ws (q : JStr) (h : ∀ c ∈ q, isJsTrimWs c = true) :
    jsTrim q = [] := by
  unfold jsTrim jsTrimEnd
  rw [List.dropWhile_eq_nil_iff.mpr h]
  simp

/-! ## Claim theorems: the aligner -/

theorem joined_length_eq (a1 a2 : List JStr) (hlen : a1.length = a2.length)
    (hn1 : ∀ g ∈ a1, '\n' ∉ g) (hn2 : ∀ g ∈ a2, '\n' ∉ g) :
    (splitOnNl (joinNl a1)).length = (splitOnNl (joinNl a2)).length := by
  cases a1 with
  | nil =>
    cases a2 with
    | nil => rfl
    | cons g2 gs2 => simp at hlen
  | cons g gs =>
    cases a2 with
    | nil => simp at hlen
    | cons g2 gs2 =>
      rw [splitOnNl_joinNl _ hn1 (by simp), splitOnNl_joinNl _ hn2 (by simp)]
      exact hlen

/-- C1 (code bug).  Failing input: both texts are `"\na"`, whose line split
is `["", "a"]`.  Both current lines being empty strings is falsy in
JavaScript, so the loop's final `else` branch (commented "Shouldn't reach
here, but safety break") fires on the very first iteration and the aligner
returns two empty aligned texts: the original line `"a"` appears in the
input line sequence of both sides but in neither aligned output, violating
alignment completeness. -/
theorem C1_theorem :
    computeDiffWithAlignment ['\n', 'a'] ['\n', 'a'] =
      { alignedText1 := [], alignedText2 := [], diffLines1 := [], diffLines2 := [] } ∧
    splitOnNl ['\n', 'a'] = [[], ['a']] ∧
    splitOnNl ([] : JStr) = [[]] ∧
    ['a'] ∉ splitOnNl ([] : JStr) := by decide

/-- C2, counterexample to the claim as stated: a 10001-line left text
against a 1-line right text takes the oversize fallback, which returns the
two *original* texts as the aligned texts, so the aligned line sequences
have lengths 10001 and 1. -/
theorem C2_counterexample :
    (splitOnNl (computeDiffWithAlignment
        (joinNl (List.replicate 10001 (['a'] : JStr))) ['b']).alignedText1).length ≠
    (splitOnNl (computeDiffWithAlignment
        (joinNl (List.replicate 10001 (['a'] : JStr))) ['b']).alignedText2).length := by
  rw [computeDiff_oversize (joinNl (List.replicate 10001 (['a'] : JStr))) ['b']
    (Or.inl (by rw [length_splitOnNl_big]; omega))]
  show (splitOnNl (joinNl (List.replicate 10001 (['a'] : JStr)))).length ≠
    (splitOnNl ['b']).length
  rw [length_splitOnNl_big]
  decide

/-- C2 (amended): for every pair of input texts in which *both* sides have
at most 10000 lines, the two aligned line sequences returned by
`computeDiffWithAlignment` have equal length — including the
iteration-limit fallback, which can only trigger when the two inputs have
equally many lines.  (The claim's original "including on the fallback
paths" fails only for the oversize fallback, see `C2_counterexample`.) -/
theorem C2_theorem (t1 t2 : JStr)
    (h1 : (splitOnNl t1).length ≤ 10000) (h2 : (splitOnNl t2).length ≤ 10000) :
    (splitOnNl (computeDiffWithAlignment t1 t2).alignedText1).length =
      (splitOnNl (computeDiffWithAlignment t1 t2).alignedText2).length := by
  obtain ⟨o1, o2, o3, o4, o5⟩ :=
    alignLoop_init_out t1 t2 (max (splitOnNl t1).length (splitOnNl t2).length * 2)
  rw [computeDiff_inbound t1 t2 h1 h2]
  split
  · rename_i hiter
    show (splitOnNl t1).length = (splitOnNl t2).length
    omega
  · exact joined_length_eq _ _ o1 o4 o5

/-- C2 witness: a small two-line comparison within the size guard. -/
theorem C2_witness :
    (splitOnNl (['a'] : JStr)).length ≤ 10000 ∧
    (splitOnNl (['b'] : JStr)).length ≤ 10000 ∧
    (splitOnNl (computeDiffWithAlignment ['a'] ['b']).alignedText1).length =
      (splitOnNl (computeDiffWithAlignment ['a'] ['b']).alignedText2).length :=
  ⟨by decide, by decide, C2_theorem ['a'] ['b'] (by decide) (by decide)⟩

/-- C3 (confirmed).  The aligner always terminates (it is a total function
here); the number of output rows on either side is bounded by
`2 * max(len1, len2)`; and whenever the iteration cap is reached, the
result is exactly the naive positional `computeSimpleDiff` of the two
texts, with no error surfaced. -/
theorem C3_theorem (t1 t2 : JStr) :
    (splitOnNl (computeDiffWithAlignment t1 t2).alignedText1).length ≤
      2 * max (splitOnNl t1).length (splitOnNl t2).length ∧
    (splitOnNl (computeDiffWithAlignment t1 t2).alignedText2).length ≤
      2 * max (splitOnNl t1).length (splitOnNl t2).length ∧
    ((alignLoop (splitOnNl t1) (splitOnNl t2)
          (max (splitOnNl t1).length (splitOnNl t2).length * 2) initSt).iterations ≥
        max (splitOnNl t1).length (splitOnNl t2).length * 2 →
      computeDiffWithAlignment t1 t2 = computeSimpleDiff t1 t2) := by
  have hm1 := length_splitOnNl_pos t1
  have hm2 := length_splitOnNl_pos t2
  by_cases hbig : 10000 < (splitOnNl t1).length ∨ 10000 < (splitOnNl t2).length
  · rw [computeDiff_oversize t1 t2 hbig]
    refine ⟨?_, ?_, fun _ => rfl⟩
    · show (splitOnNl t1).length ≤ _
      omega
    · show (splitOnNl t2).length ≤ _
      omega
  · have h1 : (splitOnNl t1).length ≤ 10000 := by omega
    have h2 : (splitOnNl t2).length ≤ 10000 := by omega
    obtain ⟨o1, o2, o3, o4, o5⟩ :=
      alignLoop_init_out t1 t2 (max (splitOnNl t1).length (splitOnNl t2).length * 2)
    rw [computeDiff_inbound t1 t2 h1 h2]
    split
    · rename_i hiter
      refine ⟨?_, ?_, fun _ => rfl⟩
      · show (splitOnNl t1).length ≤ _
        omega
      · show (splitOnNl t2).length ≤ _
        omega
    · rename_i hiter
      refine ⟨?_, ?_, fun hhit => absurd hhit hiter⟩
      · show (splitOnNl (joinNl (alignLoop (splitOnNl t1) (splitOnNl t2)
            (max (splitOnNl t1).length (splitOnNl t2).length * 2) initSt).a1)).length ≤ _
        cases ha : (alignLoop (splitOnNl t1) (splitOnNl t2)
            (max (splitOnNl t1).length (splitOnNl t2).length * 2) initSt).a1 with
        | nil => simp only [joinNl, splitOnNl, List.length_singleton]; omega
        | cons g gs =>
          rw [← ha, splitOnNl_joinNl _ o4 (by rw [ha]; simp)]
          omega
      · show (splitOnNl (joinNl (alignLoop (splitOnNl t1) (splitOnNl t2)
            (max (splitOnNl t1).length (splitOnNl t2).length * 2) initSt).a2)).length ≤ _
        cases ha : (alignLoop (splitOnNl t1) (splitOnNl t2)
            (max (splitOnNl t1).length (splitOnNl t2).length * 2) initSt).a2 with
        | nil => simp only [joinNl, splitOnNl, List.length_singleton]; omega
        | cons g gs =>
          rw [← ha, splitOnNl_joinNl _ o5 (by rw [ha]; simp)]
          omega

/-- C3 witness: `"a"` against `""` hits the iteration cap (two iterations,
cap `2`), and the result is indeed the naive fallback. -/
theorem C3_witness :
    (alignLoop (splitOnNl ['a']) (splitOnNl ([] : JStr))
        (max (splitOnNl (['a'] : JStr)).length (splitOnNl ([] : JStr)).length * 2)
        initSt).iterations ≥
      max (splitOnNl (['a'] : JStr)).length (splitOnNl ([] : JStr)).length * 2 ∧
    computeDiffWithAlignment ['a'] [] = computeSimpleDiff ['a'] [] :=
  ⟨by decide, ( C3_theorem ['a'] [] ).2.2 (by decide)⟩

/-- C10 (confirmed).  When either side has more than 10000 lines the greedy
alignment is skipped entirely: the result is `computeSimpleDiff`, whose
aligned texts are the original inputs unchanged, and a row index enters a
side's diff set only when that side's defaulted line at the index is
non-empty and differs from the other side's defaulted line. -/
theorem C10_theorem (t1 t2 : JStr)
    (h : 10000 < (splitOnNl t1).length ∨ 10000 < (splitOnNl t2).length) :
    computeDiffWithAlignment t1 t2 = computeSimpleDiff t1 t2 ∧
    (computeDiffWithAlignment t1 t2).alignedText1 = t1 ∧
    (computeDiffWithAlignment t1 t2).alignedText2 = t2 ∧
    (∀ i ∈ (computeDiffWithAlignment t1 t2).diffLines1,
      lineAt (splitOnNl t1) i ≠ [] ∧ lineAt (splitOnNl t1) i ≠ lineAt (splitOnNl t2) i) ∧
    (∀ i ∈ (computeDiffWithAlignment t1 t2).diffLines2,
      lineAt (splitOnNl t2) i ≠ [] ∧ lineAt (splitOnNl t1) i ≠ lineAt (splitOnNl t2) i) := by
  have heq := computeDiff_oversize t1 t2 h
  rw [heq]
  refine ⟨rfl, rfl, rfl, ?_, ?_⟩
  · intro i hi
    simp only [computeSimpleDiff, List.mem_filter, List.mem_range,
      Bool.and_eq_true, bne_iff_ne, ne_eq] at hi
    exact ⟨hi.2.2, hi.2.1⟩
  · intro i hi
    simp only [computeSimpleDiff, List.mem_filter, List.mem_range,
      Bool.and_eq_true, bne_iff_ne, ne_eq] at hi
    exact ⟨hi.2.2, hi.2.1⟩

/-- C10 witness: the oversize hypothesis holds for a 10001-line input. -/
theorem C10_witness :
    computeDiffWithAlignment (joinNl (List.replicate 10001 (['a'] : JStr))) ['b'] =
      computeSimpleDiff (joinNl (List.replicate 10001 (['a'] : JStr))) ['b'] ∧
    (computeDiffWithAlignment
        (joinNl (List.replicate 10001 (['a'] : JStr))) ['b']).alignedText1 =
      joinNl (List.replicate 10001 (['a'] : JStr)) :=
  have h := C10_theorem (joinNl (List.replicate 10001 (['a'] : JStr))) ['b']
    (Or.inl (by rw [length_splitOnNl_big]; omega))
  ⟨h.1, h.2.1⟩

/-! ## Claim theorems: look-ahead step and search -/

/-- C4, counterexample to the claim as stated: `left = ["a"]`,
`right = ["b","x","y","z","w","a"]`.  A later match for `left[0]` exists in
the right array at look-ahead distance 5 — inside the claimed 5-line window
— but the code's scan `for (j = i2+1; j < min(i2+5, n); j++)` only examines
distances 1–4, so no insertion is emitted: the step produces a modification
row carrying `("a", "b")`, marks *both* diff sets, and advances *both*
cursors. -/
theorem C4_counterexample :
    alignBody [['a']] [['b'], ['x'], ['y'], ['z'], ['w'], ['a']] initSt =
      ({ a1 := [['a']], a2 := [['b']], d1 := [0], d2 := [0],
         i1 := 1, i2 := 1, alignedIndex := 1, iterations := 1 }, true) ∧
    [['b'], ['x'], ['y'], ['z'], ['w'], ['a']].get? 5 = some ['a'] ∧
    (5 : Nat) ≤ 0 + 5 := by decide

/-- C4 (amended): whenever both current lines exist, are non-empty and
differ, and a later match for `left[i1]` occurs in the right array at a
look-ahead distance of 1 to 4 (strictly below `i2 + 5`), the step emits a
right-only insertion row — empty placeholder pushed on the left, `right[i2]`
pushed on the right — adds the row index to the right diff set only, and
advances only the right cursor. -/
theorem C4_theorem (l1 l2 : List JStr) (st : AlignSt) (s1 s2 : JStr)
    (h1 : l1.get? st.i1 = some s1) (h2 : l2.get? st.i2 = some s2)
    (hn1 : s1 ≠ []) (hn2 : s2 ≠ []) (hne : s1 ≠ s2)
    (hk : ∃ k, st.i2 < k ∧ k < st.i2 + 5 ∧ k < l2.length ∧ l2.get? k = some s1) :
    alignBody l1 l2 st =
      ({ st with a1 := st.a1 ++ [[]], a2 := st.a2 ++ [s2],
                 d2 := st.d2 ++ [st.alignedIndex],
                 i2 := st.i2 + 1,
                 alignedIndex := st.alignedIndex + 1,
                 iterations := st.iterations + 1 }, true) := by
  have hscan : scanFor l2 s1 (st.i2 + 1) (min (st.i2 + 5) l2.length) = true := by
    rw [scanFor_iff]
    obtain ⟨k, hk1, hk2, hk3, hk4⟩ := hk
    exact ⟨k, by omega, by omega, hk4⟩
  have he1 : s1.isEmpty = false := by
    cases s1 with
    | nil => exact absurd rfl hn1
    | cons a b => rfl
  have he2 : s2.isEmpty = false := by
    cases s2 with
    | nil => exact absurd rfl hn2
    | cons a b => rfl
  have hb1 : jsTruthy (some s1) = true := by simp [jsTruthy, he1]
  have hb2 : jsTruthy (some s2) = true := by simp [jsTruthy, he2]
  have hbeq : (some s1 == some s2) = false := by
    simp only [beq_eq_false_iff_ne, ne_eq, Option.some.injEq]
    exact hne
  simp only [alignBody, h1, h2, Option.getD_some]
  rw [if_neg (by simp [hb1, hb2, hbeq]), if_neg (by simp [hb1, hb2]),
    if_neg (by simp [hb1]), if_pos (by simp [hb1, hb2]), if_pos hscan]

/-- C4 witness: a concrete insertion step with a match at distance 1. -/
theorem C4_witness :
    alignBody [['a']] [['b'], ['a']] initSt =
      ({ a1 := [[]], a2 := [['b']], d1 := [], d2 := [0],
         i1 := 0, i2 := 1, alignedIndex := 1, iterations := 1 }, true) := by
  have h := C4_theorem [['a']] [['b'], ['a']] initSt ['a'] ['b'] rfl rfl
    (by decide) (by decide) (by decide) ⟨1, by decide, by decide, by decide, rfl⟩
  simpa [initSt] using h

/-- C7, counterexample to the claim as stated: a preview search for the
absent query `"z"` in the document `"abc"` stores `currentTarget = 1` while
`total = 0`, so `currentIndex ≤ total` fails right after a public search
operation. -/
theorem C7_counterexample :
    (searchInPreview ['a', 'b', 'c'] ['z']).1.currentTarget = 1 ∧
    (searchInPreview ['a', 'b', 'c'] ['z']).1.total = 0 ∧
    (searchInPreview ['a', 'b', 'c'] ['z']).1.query = ['z'] := by decide

/-- C7 (amended): after every public search operation the side state
satisfies the invariant `SInv`: `total` equals the number of matches of the
stored query, an empty stored query comes with `currentTarget = 0` and
`total = 0`, and otherwise `currentTarget` is at least 1 and either at most
`total` or exactly 1 — in particular a non-empty query with zero matches
leaves `currentTarget` at `1`, one above `total`, not at `0` as the
original claim stated. -/
theorem C7_theorem (doc q : JStr) (st : SideSearchState) (h : SInv doc st) :
    SInv doc (searchInPreview doc q).1 ∧
    SInv doc (findNextMatchOp st).1 ∧
    SInv doc (findPreviousMatchOp st).1 ∧
    SInv doc clearSearchOp := by
  obtain ⟨hE, hNE⟩ := h
  refine ⟨?_, ?_, ?_, ⟨fun _ => ⟨rfl, rfl⟩, fun hx => absurd rfl hx⟩⟩
  · unfold searchInPreview
    by_cases hq0 : q.isEmpty
    · rw [if_pos hq0]
      exact ⟨fun _ => ⟨rfl, rfl⟩, fun hx => absurd rfl hx⟩
    · rw [if_neg hq0]
      dsimp only
      refine ⟨fun hq => ?_, fun _ => ⟨rfl, Nat.le_refl 1, Or.inr rfl⟩⟩
      exact absurd hq (by simpa [List.isEmpty_iff] using hq0)
  · by_cases hg : (st.query.isEmpty || st.total == 0) = true
    · unfold findNextMatchOp
      rw [if_pos hg]
      exact ⟨hE, hNE⟩
    · have hg' := hg
      simp only [Bool.or_eq_true, List.isEmpty_iff, beq_iff_eq] at hg'
      obtain ⟨hq, ht⟩ := not_or.mp hg'
      rw [findNextMatchOp_run st hq ht]
      dsimp only
      obtain ⟨hc, hge1, hle⟩ := hNE hq
      refine ⟨fun hx => absurd hx hq, fun _ => ⟨hc, ?_, ?_⟩⟩
      · split <;> dsimp only <;> omega
      · split <;> dsimp only <;> omega
  · by_cases hg : (st.query.isEmpty || st.total == 0) = true
    · unfold findPreviousMatchOp
      rw [if_pos hg]
      exact ⟨hE, hNE⟩
    · have hg' := hg
      simp only [Bool.or_eq_true, List.isEmpty_iff, beq_iff_eq] at hg'
      obtain ⟨hq, ht⟩ := not_or.mp hg'
      rw [findPreviousMatchOp_run st hq ht]
      dsimp only
      obtain ⟨hc, hge1, hle⟩ := hNE hq
      refine ⟨fun hx => absurd hx hq, fun _ => ⟨hc, ?_, ?_⟩⟩
      · split <;> dsimp only <;> omega
      · split <;> dsimp only <;> omega

/-- C7 witness: the invariant after a zero-match search and after clearing,
for a concrete document. -/
theorem C7_witness :
    SInv ['a'] (searchInPreview ['a'] ['z']).1 ∧ SInv ['a'] clearSearchOp :=
  have h := C7_theorem ['a'] ['z'] clearedSide
    ⟨fun _ => ⟨rfl, rfl⟩, fun hx => absurd rfl hx⟩
  ⟨h.1, h.2.2.2⟩

/-- C8 (confirmed).  For a side with `total ≥ 1` matches and the cursor on
match 1: `next` applied exactly `total` times returns to the same state, and
so does `previous`; with zero matches both operations report failure and
leave the state unchanged; and each single step advances cyclically
(wrapping from `total` to 1, resp. from 1 to `total`). -/
theorem C8_theorem (st : SideSearchState) (hq : st.query ≠ [])
    (h1 : st.currentTarget = 1) (ht : 1 ≤ st.total) :
    (fun s => (findNextMatchOp s).1)^[st.total] st = st ∧
    (fun s => (findPreviousMatchOp s).1)^[st.total] st = st ∧
    (∀ s : SideSearchState, s.total = 0 →
      findNextMatchOp s = (s, false) ∧ findPreviousMatchOp s = (s, false)) ∧
    (∀ s : SideSearchState, s.query ≠ [] → 1 ≤ s.total →
      (findNextMatchOp s).2 = true ∧
      (findNextMatchOp s).1.currentTarget =
        (if s.currentTarget ≥ s.total then 1 else s.currentTarget + 1) ∧
      (findPreviousMatchOp s).2 = true ∧
      (findPreviousMatchOp s).1.currentTarget =
        (if s.currentTarget ≤ 1 then s.total else s.currentTarget - 1)) := by
  refine ⟨?_, ?_, ?_, ?_⟩
  · rw [nextIter st.total st hq (by omega) (by omega)]
    have harg : (st.currentTarget - 1 + st.total) % st.total + 1 = st.currentTarget := by
      rw [h1]
      simp [Nat.mod_self]
    rw [harg]
  · rw [prevIter st.total st hq (by omega) (by omega)]
    have harg : (st.currentTarget - 1 + st.total * (st.total - 1)) % st.total + 1 =
        st.currentTarget := by
      rw [h1]
      simp [Nat.mul_mod_right]
    rw [harg]
  · intro s hs
    unfold findNextMatchOp findPreviousMatchOp
    rw [hs]
    simp
  · intro s hsq hst
    rw [findNextMatchOp_run s hsq (by omega), findPreviousMatchOp_run s hsq (by omega)]
    exact ⟨rfl, rfl, rfl, rfl⟩

/-- C8 witness: two matches, starting at match 1; two `next` steps and two
`previous` steps each return to the initial state. -/
theorem C8_witness :
    (fun s => (findNextMatchOp s).1)^[2] ⟨['a'], 1, 2⟩ = ⟨['a'], 1, 2⟩ ∧
    (fun s => (findPreviousMatchOp s).1)^[2] ⟨['a'], 1, 2⟩ = ⟨['a'], 1, 2⟩ :=
  have h := C8_theorem ⟨['a'], 1, 2⟩ (by decide) rfl (by decide)
  ⟨h.1, h.2.1⟩

/-- C9, counterexample to the claim as stated: the whitespace-only query
`" "` is truthy in JavaScript, so `searchInPreview` really searches with
it: on the document `"a b"` it returns 1 match and stores the query instead
of clearing the side state. -/
theorem C9_counterexample :
    searchInPreview ['a', ' ', 'b'] [' '] =
      ({ query := [' '], currentTarget := 1, total := 1 }, 1) ∧
    jsTrim [' '] = [] := by decide

/-- C9 (amended): searching with an *empty* query clears the side state and
returns a match count of 0 without error; a whitespace-only but non-empty
query is treated as an ordinary query by `searchInPreview` (it can return
non-zero matches, see the counterexample), while the standalone
`searchInEditor` helper does return the empty match list for every
whitespace-only query. -/
theorem C9_theorem (doc q : JStr) (hws : ∀ c ∈ q, isJsTrimWs c = true) :
    searchInPreview doc [] = (clearedSide, 0) ∧
    searchInEditor doc q = [] := by
  constructor
  · rfl
  · unfold searchInEditor
    rw [jsTrim_nil_of_ws q hws]
    rfl

/-- C9 witness: concrete document and whitespace query. -/
theorem C9_witness :
    searchInPreview ['a', 'x'] [] = (clearedSide, 0) ∧
    searchInEditor ['a', 'x'] [' '] = [] :=
  C9_theorem ['a', 'x'] [' '] (by decide)

/-! ## Claim theorems: the normalizer fallback (C5) -/

/-- C5, counterexample to the claim as stated: on the unparseable input
`" {"` (leading space kept), the catch branch returns the *original* string
`" {"`, not the trimmed-and-newline-normalized `"{"` the claim promises. -/
theorem C5_counterexample :
    jsonParse (jsTrim (normNl [' ', '{'])) = none ∧
    formatJsonStr [' ', '{'] = [' ', '{'] ∧
    formatJsonStr [' ', '{'] ≠ jsTrim (normNl [' ', '{']) := by decide

/-- C5 (amended): `normalize` never throws (it is a total function here),
and for every string input whose trimmed, newline-normalized form fails
JSON parsing it returns the *original* input string unchanged — not the
trimmed form; for already-trimmed inputs such as `"not valid json {"` the
two coincide. -/
theorem C5_theorem (s : JStr) (hfail : jsonParse (jsTrim (normNl s)) = none) :
    formatJsonStr s = s := by
  unfold formatJsonStr formatJson
  dsimp only
  rw [hfail]

/-- C5 witness: the spec's scenario-5 input, already trimmed. -/
theorem C5_witness :
    formatJsonStr
      ['n', 'o', 't', ' ', 'v', 'a', 'l', 'i', 'd', ' ',
       'j', 's', 'o', 'n', ' ', '{'] =
    ['n', 'o', 't', ' ', 'v', 'a', 'l', 'i', 'd', ' ',
     'j', 's', 'o', 'n', ' ', '{'] :=
  C5_theorem _ (by decide)

/-! ## Lemmas: whitespace skipping and token boundaries -/

theorem dropWhile_append_all {p : Char → Bool} (a b : JStr)
    (ha : ∀ c ∈ a, p c = true) :
    List.dropWhile p (a ++ b) = List.dropWhile p b := by
  induction a with
  | nil => rfl
  | cons c t ih =>
    rw [List.cons_append, List.dropWhile_cons]
    rw [ha c (List.mem_cons_self c t)]
    exact ih fun x hx => ha x (List.mem_cons_of_mem c hx)

theorem skipWs_ws_append (w s : JStr) (hw : ∀ c ∈ w, isJsonWs c = true) :
    skipWs (w ++ s) = skipWs s :=
  dropWhile_append_all w s hw

theorem skipWs_cons_not (c : Char) (s : JStr) (hc : isJsonWs c = false) :
    skipWs (c :: s) = c :: s := by
  unfold skipWs
  rw [List.dropWhile_cons, hc]
  rfl

theorem spaces_ws (n : Nat) : ∀ c ∈ spaces n, isJsonWs c = true := by
  intro c hc
  rw [List.eq_of_mem_replicate hc]
  rfl

theorem parseValue_ws (fuel : Nat) (w s : JStr) (hw : ∀ c ∈ w, isJsonWs c = true) :
    parseValue fuel (w ++ s) = parseValue fuel s := by
  cases fuel with
  | zero => rfl
  | succ n =>
    show parseValue (n + 1) (w ++ s) = parseValue (n + 1) s
    unfold parseValue
    rw [skipWs_ws_append w s hw]

theorem takeWhile_append_stop {p : Char → Bool} (a b : JStr)
    (ha : ∀ c ∈ a, p c = true) (hb : ∀ c, b.head? = some c → p c = false) :
    (a ++ b).takeWhile p = a ∧ (a ++ b).dropWhile p = b := by
  induction a with
  | nil =>
    simp only [List.nil_append]
    cases b with
    | nil => exact ⟨rfl, rfl⟩
    | cons c r =>
      have hpc := hb c rfl
      rw [List.takeWhile_cons, List.dropWhile_cons, hpc]
      constructor <;> simp
  | cons c t ih =>
    have hc := ha c (List.mem_cons_self c t)
    obtain ⟨ihT, ihD⟩ := ih fun x hx => ha x (List.mem_cons_of_mem c hx)
    rw [List.cons_append, List.takeWhile_cons, List.dropWhile_cons, hc]
    constructor <;> simp [ihT, ihD]

/-! ## Lemmas: string-literal round trip -/

theorem hexDigVal_hexDig (n : Nat) (h : n < 16) : hexDigVal (hexDig n) = some n := by
  interval_cases n <;> decide

theorem escBody_parse (s rest : JStr) :
    parseStringBody (escBody s ++ rest) = some (s, rest) := by
  induction s with
  | nil =>
    show parseStringBody ('"' :: rest) = some ([], rest)
    rw [parseStringBody]
    simp
  | cons c t ih =>
    show parseStringBody ((escChar c ++ escBody t) ++ rest) = some (c :: t, rest)
    rw [List.append_assoc]
    unfold escChar
    split_ifs with h1 h2 h3 h4 h5 h6 h7 h8
    · subst h1
      rw [List.cons_append, List.cons_append, List.nil_append,
        parseStringBody, parseEsc]
      simp [escPair, ih]
    · subst h2
      rw [List.cons_append, List.cons_append, List.nil_append,
        parseStringBody, parseEsc]
      simp [escPair, ih]
    · subst h3
      rw [List.cons_append, List.cons_append, List.nil_append,
        parseStringBody, parseEsc]
      simp [escPair, ih]
    · subst h4
      rw [List.cons_append, List.cons_append, List.nil_append,
        parseStringBody, parseEsc]
      simp [escPair, ih]
    · subst h5
      rw [List.cons_append, List.cons_append, List.nil_append,
        parseStringBody, parseEsc]
      simp [escPair, ih]
    · subst h6
      rw [List.cons_append, List.cons_append, List.nil_append,
        parseStringBody, parseEsc]
      simp [escPair, ih]
    · subst h7
      rw [List.cons_append, List.cons_append, List.nil_append,
        parseStringBody, parseEsc]
      simp [escPair, ih]
    · -- control character below 0x20, emitted as a hexadecimal escape
      have hlt16a : c.toNat / 16 < 16 := by omega
      have hlt16b : c.toNat % 16 < 16 := by omega
      have hv0 : hexDigVal '0' = some 0 := by decide
      have hva := hexDigVal_hexDig _ hlt16a
      have hvb := hexDigVal_hexDig _ hlt16b
      have hcode : 4096 * 0 + 256 * 0 + 16 * (c.toNat / 16) + c.toNat % 16 = c.toNat := by
        omega
      have hsur : ¬(0xd800 ≤ 4096 * 0 + 256 * 0 + 16 * (c.toNat / 16) + c.toNat % 16 ∧
          4096 * 0 + 256 * 0 + 16 * (c.toNat / 16) + c.toNat % 16 < 0xe000) := by
        omega
      simp only [List.cons_append, List.nil_append]
      rw [parseStringBody, parseEsc]
      simp only [if_pos rfl, if_neg (by decide : ¬('\\' : Char) = '"'), parseHex]
      simp only [hv0, hva, hvb, Option.bind_eq_bind, Option.some_bind]
      rw [if_neg hsur]
      simp [ih, Nat.div_add_mod, Char.ofNat_toNat]
    · -- ordinary character, emitted raw
      simp only [List.cons_append, List.nil_append]
      rw [parseStringBody]
      rw [if_neg h1, if_neg h2, if_neg h8]
      simp [ih]

/-! ## Lemmas: number literals -/

theorem digTail_split (s r : JStr) (h : digTail s = some r) :
    ∃ pre, s = pre ++ r ∧ ∀ c ∈ pre, isNumChar c = true := by
  cases s with
  | nil => exact absurd h (by simp [digTail])
  | cons d r2 =>
    rw [digTail] at h
    split_ifs at h with hd
    · injection h with h'
      subst h'
      refine ⟨(d :: r2).takeWhile isDig, ?_, ?_⟩
      · rw [List.takeWhile_append_dropWhile]
      · intro x hx
        have := List.mem_takeWhile_imp hx
        simp [isNumChar, this]

theorem expTail_split (s r : JStr) (h : expTail s = some r) :
    ∃ pre, s = pre ++ r ∧ ∀ c ∈ pre, isNumChar c = true := by
  cases s with
  | nil => exact absurd h (by simp [expTail])
  | cons s1 r2 =>
    rw [expTail] at h
    split_ifs at h with hs
    · obtain ⟨pre, hpre, hch⟩ := digTail_split _ _ h
      refine ⟨s1 :: pre, by simp [hpre], ?_⟩
      intro x hx
      rcases List.mem_cons.mp hx with rfl | hx2
      · rcases hs with rfl | rfl <;> decide
      · exact hch x hx2
    · exact digTail_split _ _ h

theorem numIntPart_split (s r : JStr) (h : numIntPart s = some r) :
    ∃ pre, s = pre ++ r ∧ ∀ c ∈ pre, isNumChar c = true := by
  cases s with
  | nil => exact absurd h (by simp [numIntPart])
  | cons c t =>
    rw [numIntPart] at h
    split_ifs at h with h0 hd
    · injection h with h'
      subst h' h0
      exact ⟨['0'], rfl, by intro x hx; simp at hx; subst hx; decide⟩
    · injection h with h'
      subst h'
      refine ⟨c :: t.takeWhile isDig, ?_, ?_⟩
      · rw [List.cons_append, List.takeWhile_append_dropWhile]
      · intro x hx
        rcases List.mem_cons.mp hx with rfl | hx2
        · simp [isNumChar, hd]
        · have := List.mem_takeWhile_imp hx2
          simp [isNumChar, this]

theorem numFrac_split (s r : JStr) (h : numFrac s = some r) :
    ∃ pre, s = pre ++ r ∧ ∀ c ∈ pre, isNumChar c = true := by
  cases s with
  | nil =>
    rw [numFrac] at h
    injection h with h'
    subst h'
    exact ⟨[], rfl, by simp⟩
  | cons c t =>
    rw [numFrac] at h
    split_ifs at h with hc
    · obtain ⟨pre, hpre, hch⟩ := digTail_split _ _ h
      subst hc
      refine ⟨'.' :: pre, by simp [hpre], ?_⟩
      intro x hx
      rcases List.mem_cons.mp hx with rfl | hx2
      · decide
      · exact hch x hx2
    · injection h with h'
      exact ⟨[], h'.symm ▸ rfl, by simp⟩

theorem numExp_split (s r : JStr) (h : numExp s = some r) :
    ∃ pre, s = pre ++ r ∧ ∀ c ∈ pre, isNumChar c = true := by
  cases s with
  | nil =>
    rw [numExp] at h
    injection h with h'
    subst h'
    exact ⟨[], rfl, by simp⟩
  | cons c t =>
    rw [numExp] at h
    split_ifs at h with hc
    · obtain ⟨pre, hpre, hch⟩ := expTail_split _ _ h
      refine ⟨c :: pre, by simp [hpre], ?_⟩
      intro x hx
      rcases List.mem_cons.mp hx with rfl | hx2
      · rcases hc with rfl | rfl <;> decide
      · exact hch x hx2
    · injection h with h'
      exact ⟨[], h'.symm ▸ rfl, by simp⟩

theorem numSign_split (l : JStr) :
    ∃ pre, l = pre ++ numSign l ∧ ∀ c ∈ pre, isNumChar c = true := by
  cases l with
  | nil => exact ⟨[], rfl, by simp⟩
  | cons c t =>
    by_cases hc : c = '-'
    · subst hc
      refine ⟨['-'], by simp [numSign], ?_⟩
      intro x hx; simp at hx; subst hx; decide
    · exact ⟨[], by simp [numSign, hc], by simp⟩

theorem validNum_parts (l : JStr) (h : isValidNum l = true) :
    ∃ r2 r3, numIntPart (numSign l) = some r2 ∧ numFrac r2 = some r3 ∧
      numExp r3 = some [] := by
  unfold isValidNum at h
  rcases h1 : numIntPart (numSign l) with _ | r2 <;> rw [h1] at h <;>
    dsimp only [] at h
  · exact absurd h (by simp)
  rcases h2 : numFrac r2 with _ | r3 <;> rw [h2] at h <;> dsimp only [] at h
  · exact absurd h (by simp)
  rcases h3 : numExp r3 with _ | r4 <;> rw [h3] at h <;> dsimp only [] at h
  · exact absurd h (by simp)
  have hr4 : r4 = [] := by simpa using h
  subst hr4
  exact ⟨r2, r3, rfl, h2, h3⟩

theorem validNum_chars (l : JStr) (h : isValidNum l = true) :
    ∀ c ∈ l, isNumChar c = true := by
  obtain ⟨r2, r3, h1, h2, h3⟩ := validNum_parts l h
  obtain ⟨p0, hp0, hc0⟩ := numSign_split l
  obtain ⟨p1, hp1, hc1⟩ := numIntPart_split _ _ h1
  obtain ⟨p2, hp2, hc2⟩ := numFrac_split _ _ h2
  obtain ⟨p3, hp3, hc3⟩ := numExp_split _ _ h3
  intro c hc
  rw [hp0, hp1, hp2, hp3] at hc
  simp only [List.append_nil, List.mem_append] at hc
  rcases hc with hx | hx | hx | hx
  exacts [hc0 c hx, hc1 c hx, hc2 c hx, hc3 c hx]

theorem validNum_head (l : JStr) (h : isValidNum l = true) :
    ∃ c t, l = c :: t ∧ isNumStart c = true := by
  unfold isValidNum at h
  cases l with
  | nil => simp [numSign, numIntPart] at h
  | cons c t =>
    refine ⟨c, t, rfl, ?_⟩
    by_cases hc : c = '-'
    · simp [isNumStart, hc]
    · have hs : numSign (c :: t) = c :: t := by simp [numSign, hc]
      rw [hs, numIntPart] at h
      split_ifs at h with h0 hd
      · subst h0; decide
      · simp [isNumStart, hd]

theorem numChar_bounds (c : Char) (h : isNumChar c = true) :
    43 ≤ c.toNat ∧ c.toNat ≤ 101 := by
  have hor : (48 ≤ c.toNat ∧ c.toNat ≤ 57) ∨ c = '-' ∨ c = '+' ∨ c = '.' ∨
      c = 'e' ∨ c = 'E' := by
    simpa [isNumChar, isDig, or_assoc] using h
  rcases hor with h' | rfl | rfl | rfl | rfl | rfl
  · omega
  all_goals decide

theorem numStart_bounds (c : Char) (h : isNumStart c = true) :
    c.toNat = 45 ∨ (48 ≤ c.toNat ∧ c.toNat ≤ 57) := by
  have hor : c = '-' ∨ (48 ≤ c.toNat ∧ c.toNat ≤ 57) := by
    simpa [isNumStart, isDig, or_assoc] using h
  rcases hor with rfl | h'
  · exact Or.inl rfl
  · exact Or.inr h'

theorem numChar_not_trimws (c : Char) (h : isNumChar c = true) :
    isJsTrimWs c = false := by
  have hb := numChar_bounds c h
  by_contra hx
  rw [Bool.not_eq_false] at hx
  have hor : c = ' ' ∨ c = '\t' ∨ c = '\n' ∨ c = '\r' ∨ c.toNat = 0xb ∨
      c.toNat = 0xc ∨ c.toNat = 0xa0 ∨ c.toNat = 0xfeff ∨ c.toNat = 0x2028 ∨
      c.toNat = 0x2029 := by
    simpa [isJsTrimWs, or_assoc] using hx
  rcases hor with rfl | rfl | rfl | rfl | h' | h' | h' | h' | h' | h'
  all_goals first
    | exact absurd hb (by decide)
    | omega

theorem numChar_ne_nl (c : Char) (h : isNumChar c = true) : c ≠ '\n' := by
  have hb := numChar_bounds c h
  rintro rfl
  exact absurd hb (by decide)

theorem numChar_ne_cr (c : Char) (h : isNumChar c = true) : c ≠ '\r' := by
  have hb := numChar_bounds c h
  rintro rfl
  exact absurd hb (by decide)

theorem numStart_props (c : Char) (h : isNumStart c = true) :
    isJsonWs c = false ∧ c ≠ 'n' ∧ c ≠ 't' ∧ c ≠ 'f' ∧ c ≠ '"' ∧ c ≠ '[' ∧
      c ≠ '{' ∧ c ≠ ']' ∧ c ≠ '}' ∧ isJsTrimWs c = false := by
  have hb := numStart_bounds c h
  refine ⟨?_, ?_, ?_, ?_, ?_, ?_, ?_, ?_, ?_, ?_⟩
  · by_contra hx
    rw [Bool.not_eq_false] at hx
    have hor : c = ' ' ∨ c = '\t' ∨ c = '\n' ∨ c = '\r' := by
      simpa [isJsonWs, or_assoc] using hx
    rcases hor with rfl | rfl | rfl | rfl <;> exact absurd hb (by decide)
  · rintro rfl; exact absurd hb (by decide)
  · rintro rfl; exact absurd hb (by decide)
  · rintro rfl; exact absurd hb (by decide)
  · rintro rfl; exact absurd hb (by decide)
  · rintro rfl; exact absurd hb (by decide)
  · rintro rfl; exact absurd hb (by decide)
  · rintro rfl; exact absurd hb (by decide)
  · rintro rfl; exact absurd hb (by decide)
  · by_contra hx
    rw [Bool.not_eq_false] at hx
    have hor : c = ' ' ∨ c = '\t' ∨ c = '\n' ∨ c = '\r' ∨ c.toNat = 0xb ∨
        c.toNat = 0xc ∨ c.toNat = 0xa0 ∨ c.toNat = 0xfeff ∨ c.toNat = 0x2028 ∨
        c.toNat = 0x2029 := by
      simpa [isJsTrimWs, or_assoc] using hx
    rcases hor with rfl | rfl | rfl | rfl | h' | h' | h' | h' | h' | h'
    all_goals first
      | exact absurd hb (by decide)
      | omega

/-! ## Lemmas: line lists and `joinNl` algebra -/

theorem mem_of_getLast?_eq {α : Type} {l : List α} {g : α} (h : l.getLast? = some g) :
    g ∈ l := by
  obtain ⟨hne, heq⟩ := List.mem_getLast?_eq_getLast (Option.mem_def.mpr h)
  rw [heq]
  exact List.getLast_mem hne

theorem joinNl_cons (g : JStr) (ls : List JStr) (h : ls ≠ []) :
    joinNl (g :: ls) = g ++ '\n' :: joinNl ls := by
  cases ls with
  | nil => exact absurd rfl h
  | cons g2 gs =>
    rw [joinNl]
    simp

theorem joinNl_append (a b : List JStr) (ha : a ≠ []) (hb : b ≠ []) :
    joinNl (a ++ b) = joinNl a ++ '\n' :: joinNl b := by
  induction a with
  | nil => exact absurd rfl ha
  | cons g gs ih =>
    cases gs with
    | nil => rw [List.cons_append, List.nil_append, joinNl_cons g b hb, joinNl]
    | cons g2 gs2 =>
      rw [List.cons_append,
        joinNl_cons g ((g2 :: gs2) ++ b) (by simp),
        ih (by simp), joinNl_cons g (g2 :: gs2) (by simp), List.append_assoc,
        List.cons_append]

theorem joinNl_consHead (p : JStr) (ls : List JStr) :
    joinNl (consHead p ls) = p ++ joinNl ls := by
  cases ls with
  | nil => simp [consHead, joinNl]
  | cons g gs =>
    cases gs with
    | nil => rw [consHead, joinNl, joinNl]
    | cons g2 gs2 =>
      rw [consHead, joinNl_cons (p ++ g) (g2 :: gs2) (by simp),
        joinNl_cons g (g2 :: gs2) (by simp), List.append_assoc]

theorem addLast_ne_nil (suf : JStr) (ls : List JStr) : addLast suf ls ≠ [] := by
  cases ls with
  | nil => simp [addLast]
  | cons g gs => cases gs <;> simp [addLast]

theorem consHead_ne_nil (p : JStr) (ls : List JStr) : consHead p ls ≠ [] := by
  cases ls <;> simp [consHead]

theorem joinNl_addLast (suf : JStr) (ls : List JStr) :
    joinNl (addLast suf ls) = joinNl ls ++ suf := by
  induction ls with
  | nil => simp [addLast, joinNl]
  | cons g gs ih =>
    cases gs with
    | nil => rw [addLast, joinNl, joinNl]
    | cons g2 gs2 =>
      rw [addLast, joinNl_cons g (addLast suf (g2 :: gs2)) (addLast_ne_nil _ _),
        ih, joinNl_cons g (g2 :: gs2) (by simp), List.append_assoc,
        List.cons_append]

theorem mem_joinNl (x : Char) (ls : List JStr) (h : x ∈ joinNl ls) :
    (∃ g ∈ ls, x ∈ g) ∨ x = '\n' := by
  induction ls with
  | nil => simp [joinNl] at h
  | cons g gs ih =>
    cases gs with
    | nil =>
      rw [joinNl] at h
      exact Or.inl ⟨g, by simp, h⟩
    | cons g2 gs2 =>
      rw [joinNl_cons g (g2 :: gs2) (by simp), List.mem_append,
        List.mem_cons] at h
      rcases h with hg | rfl | hrest
      · exact Or.inl ⟨g, by simp, hg⟩
      · exact Or.inr rfl
      · rcases ih hrest with ⟨g', hg', hx⟩ | hx
        · exact Or.inl ⟨g', by simp [hg'], hx⟩
        · exact Or.inr hx

theorem serItems_cons (ind : Nat) (h : Json) (t : JsonList) :
    serItems ind (JsonList.cons h t) =
      spaces ind ++ (serVal ind h ++ itemsSep ind t) := by
  cases t <;> simp [serItems, itemsSep]

theorem serFields_cons (ind : Nat) (k : JStr) (v : Json) (t : JsonFields) :
    serFields ind (JsonFields.cons k v t) =
      spaces ind ++ (serStr k ++ ':' :: ' ' :: (serVal ind v ++ fieldsSep ind t)) := by
  cases t <;> simp [serFields, fieldsSep]

theorem linesV_ne_nil (ind : Nat) (v : Json) : linesV ind v ≠ [] := by
  cases v with
  | bool b => cases b <;> simp [linesV]
  | arr l => cases l <;> simp [linesV]
  | obj l => cases l <;> simp [linesV]
  | _ => simp [linesV]

theorem linesL_cons_ne_nil (ind : Nat) (h : Json) (t : JsonList) :
    linesL ind (JsonList.cons h t) ≠ [] := by
  cases t with
  | nil => exact consHead_ne_nil _ _
  | cons h2 t2 => simp [linesL, addLast_ne_nil]

theorem linesF_cons_ne_nil (ind : Nat) (k : JStr) (v : Json) (t : JsonFields) :
    linesF ind (JsonFields.cons k v t) ≠ [] := by
  cases t with
  | nil => exact consHead_ne_nil _ _
  | cons k2 v2 t2 => simp [linesF, addLast_ne_nil]

mutual
theorem serVal_lines (ind : Nat) (v : Json) :
    serVal ind v = joinNl (linesV ind v) := by
  cases v with
  | null => rfl
  | bool b => cases b <;> rfl
  | num lit => rfl
  | str s => rfl
  | arr l =>
    cases l with
    | nil => rfl
    | cons h t =>
      rw [serVal, linesV,
        joinNl_cons _ _ (by simp),
        joinNl_append _ _ (linesL_cons_ne_nil _ _ _) (by simp),
        ← serItems_lines, joinNl]
      simp
  | obj l =>
    cases l with
    | nil => rfl
    | cons k v2 t =>
      rw [serVal, linesV,
        joinNl_cons _ _ (by simp),
        joinNl_append _ _ (linesF_cons_ne_nil _ _ _ _) (by simp),
        ← serFields_lines, joinNl]
      simp
theorem serItems_lines (ind : Nat) (l : JsonList) :
    serItems ind l = joinNl (linesL ind l) := by
  cases l with
  | nil => rfl
  | cons h t =>
    cases t with
    | nil =>
      rw [serItems, linesL, joinNl_consHead, ← serVal_lines]
    | cons h2 t2 =>
      rw [serItems, linesL, joinNl_append _ _ (addLast_ne_nil _ _)
        (linesL_cons_ne_nil _ _ _), joinNl_addLast, joinNl_consHead,
        ← serVal_lines, ← serItems_lines]
      simp
theorem serFields_lines (ind : Nat) (l : JsonFields) :
    serFields ind l = joinNl (linesF ind l) := by
  cases l with
  | nil => rfl
  | cons k v t =>
    cases t with
    | nil =>
      rw [serFields, linesF, joinNl_consHead, ← serVal_lines]
      simp
    | cons k2 v2 t2 =>
      rw [serFields, linesF, joinNl_append _ _ (addLast_ne_nil _ _)
        (linesF_cons_ne_nil _ _ _ _), joinNl_addLast, joinNl_consHead,
        ← serVal_lines, ← serFields_lines]
      simp
end

/-! ## Lemmas: serialized output lines are well-behaved -/

theorem hexDig_bounds (n : Nat) (h : n < 16) :
    48 ≤ (hexDig n).toNat ∧ (hexDig n).toNat ≤ 102 := by
  interval_cases n <;> decide

theorem escChar_no_nl (c : Char) : '\n' ∉ escChar c := by
  unfold escChar
  split_ifs with h1 h2 h3 h4 h5 h6 h7 h8
  · decide
  · decide
  · decide
  · decide
  · decide
  · decide
  · decide
  · intro hx
    have hha := hexDig_bounds (c.toNat / 16) (by omega)
    have hhb := hexDig_bounds (c.toNat % 16) (by omega)
    simp only [List.mem_cons, List.not_mem_nil, or_false] at hx
    rcases hx with hx | hx | hx | hx | hx | hx
    · exact absurd hx.symm (by decide)
    · exact absurd hx.symm (by decide)
    · exact absurd hx.symm (by decide)
    · exact absurd hx.symm (by decide)
    · rw [← hx] at hha
      exact absurd hha (by decide)
    · rw [← hx] at hhb
      exact absurd hhb (by decide)
  · intro hx
    simp only [List.mem_cons, List.not_mem_nil, or_false] at hx
    exact h5 hx.symm

theorem escChar_no_cr (c : Char) : '\r' ∉ escChar c := by
  unfold escChar
  split_ifs with h1 h2 h3 h4 h5 h6 h7 h8
  · decide
  · decide
  · decide
  · decide
  · decide
  · decide
  · decide
  · intro hx
    have hha := hexDig_bounds (c.toNat / 16) (by omega)
    have hhb := hexDig_bounds (c.toNat % 16) (by omega)
    simp only [List.mem_cons, List.not_mem_nil, or_false] at hx
    rcases hx with hx | hx | hx | hx | hx | hx
    · exact absurd hx.symm (by decide)
    · exact absurd hx.symm (by decide)
    · exact absurd hx.symm (by decide)
    · exact absurd hx.symm (by decide)
    · rw [← hx] at hha
      exact absurd hha (by decide)
    · rw [← hx] at hhb
      exact absurd hhb (by decide)
  · intro hx
    simp only [List.mem_cons, List.not_mem_nil, or_false] at hx
    exact h7 hx.symm

theorem escBody_ne_nil (s : JStr) : escBody s ≠ [] := by
  cases s with
  | nil => simp [escBody]
  | cons c t =>
    rw [escBody]
    intro hx
    rcases List.append_eq_nil.mp hx with ⟨-, h2⟩
    exact escBody_ne_nil t h2

theorem escBody_no_nl (s : JStr) : '\n' ∉ escBody s := by
  induction s with
  | nil => decide
  | cons c t ih =>
    rw [escBody]
    intro hx
    rcases List.mem_append.mp hx with hx | hx
    · exact escChar_no_nl c hx
    · exact ih hx

theorem escBody_no_cr (s : JStr) : '\r' ∉ escBody s := by
  induction s with
  | nil => decide
  | cons c t ih =>
    rw [escBody]
    intro hx
    rcases List.mem_append.mp hx with hx | hx
    · exact escChar_no_cr c hx
    · exact ih hx

theorem escBody_last (s : JStr) : (escBody s).getLast? = some '"' := by
  induction s with
  | nil => rfl
  | cons c t ih =>
    rw [escBody, List.getLast?_append_of_ne_nil _ (escBody_ne_nil t)]
    exact ih

theorem serStr_lineOk (s : JStr) : lineOk (serStr s) := by
  refine ⟨?_, ?_, ?_⟩
  · intro hx
    rcases List.mem_cons.mp hx with hx | hx
    · exact absurd hx (by decide)
    · exact escBody_no_nl s hx
  · intro hx
    rcases List.mem_cons.mp hx with hx | hx
    · exact absurd hx (by decide)
    · exact escBody_no_cr s hx
  · intro x hx
    have : (serStr s).getLast? = some '"' := by
      show (['"'] ++ escBody s).getLast? = some '"'
      rw [List.getLast?_append_of_ne_nil _ (escBody_ne_nil s)]
      exact escBody_last s
    rw [this] at hx
    injection hx with hx
    subst hx
    decide

theorem num_lineOk (lit : JStr) (h : isValidNum lit = true) : lineOk lit := by
  refine ⟨?_, ?_, ?_⟩
  · intro hx
    exact absurd (validNum_chars lit h _ hx) (by decide)
  · intro hx
    exact absurd (validNum_chars lit h _ hx) (by decide)
  · intro x hx
    exact numChar_not_trimws x (validNum_chars lit h x (mem_of_getLast?_eq hx))

theorem linesOk_singleton (g : JStr) (h : lineOk g) (hne : g ≠ []) :
    linesOk [g] := by
  refine ⟨?_, ?_, ?_⟩
  · intro g' hg'
    rw [List.mem_singleton.mp hg']
    exact h
  · intro g' hg'
    injection hg' with hg'
    subst hg'
    exact hne
  · intro g' hg'
    injection hg' with hg'
    subst hg'
    exact hne

theorem spaces_no_nl (n : Nat) : '\n' ∉ spaces n := by
  intro hx
  exact absurd (List.eq_of_mem_replicate hx) (by decide)

theorem spaces_no_cr (n : Nat) : '\r' ∉ spaces n := by
  intro hx
  exact absurd (List.eq_of_mem_replicate hx) (by decide)

theorem closer_lineOk (n : Nat) (c : Char) (hnl : c ≠ '\n') (hcr : c ≠ '\r')
    (hws : isJsTrimWs c = false) : lineOk (spaces n ++ [c]) := by
  refine ⟨?_, ?_, ?_⟩
  · intro hx
    rcases List.mem_append.mp hx with hx | hx
    · exact spaces_no_nl n hx
    · exact hnl (List.mem_singleton.mp hx).symm
  · intro hx
    rcases List.mem_append.mp hx with hx | hx
    · exact spaces_no_cr n hx
    · exact hcr (List.mem_singleton.mp hx).symm
  · intro x hx
    rw [List.getLast?_append_of_ne_nil _ (by simp)] at hx
    simp only [List.getLast?_singleton, Option.some.injEq] at hx
    subst hx
    exact hws

theorem consHead_mem_ok (p : JStr) (hpnl : '\n' ∉ p) (hpcr : '\r' ∉ p)
    (ls : List JStr) (hmem : ∀ g ∈ ls, lineOk g)
    (hhead : ∀ g, ls.head? = some g → g ≠ []) (hne : ls ≠ []) :
    ∀ g ∈ consHead p ls, lineOk g := by
  cases ls with
  | nil => exact absurd rfl hne
  | cons g0 gs =>
    intro g hg
    rw [consHead] at hg
    rcases List.mem_cons.mp hg with rfl | hg2
    · have h0 := hmem g0 (by simp)
      have h0ne := hhead g0 rfl
      refine ⟨?_, ?_, ?_⟩
      · intro hx
        rcases List.mem_append.mp hx with hx | hx
        · exact hpnl hx
        · exact h0.1 hx
      · intro hx
        rcases List.mem_append.mp hx with hx | hx
        · exact hpcr hx
        · exact h0.2.1 hx
      · intro x hx
        rw [List.getLast?_append_of_ne_nil _ h0ne] at hx
        exact h0.2.2 x hx
    · exact hmem g (List.mem_cons_of_mem g0 hg2)

theorem addLast_mem_ok (suf : JStr) (hsuf : lineOk suf) (hsufne : suf ≠ [])
    (ls : List JStr) (hmem : ∀ g ∈ ls, lineOk g) :
    ∀ g ∈ addLast suf ls, lineOk g := by
  induction ls with
  | nil =>
    intro g hg
    rw [List.mem_singleton.mp hg]
    exact hsuf
  | cons g0 gs ih =>
    cases gs with
    | nil =>
      intro g hg
      rw [addLast] at hg
      rw [List.mem_singleton.mp hg]
      have h0 := hmem g0 (by simp)
      refine ⟨?_, ?_, ?_⟩
      · intro hx
        rcases List.mem_append.mp hx with hx | hx
        · exact h0.1 hx
        · exact hsuf.1 hx
      · intro hx
        rcases List.mem_append.mp hx with hx | hx
        · exact h0.2.1 hx
        · exact hsuf.2.1 hx
      · intro x hx
        rw [List.getLast?_append_of_ne_nil _ hsufne] at hx
        exact hsuf.2.2 x hx
    | cons g1 gs1 =>
      intro g hg
      rw [addLast] at hg
      rcases List.mem_cons.mp hg with rfl | hg2
      · exact hmem g (by simp)
      · exact ih (fun g' hg' => hmem g' (List.mem_cons_of_mem g0 hg')) g hg2

theorem consHead_head_ne (p : JStr) (ls : List JStr) (hne : ls ≠ [])
    (hhead : ∀ g, ls.head? = some g → g ≠ []) :
    ∀ g, (consHead p ls).head? = some g → g ≠ [] := by
  cases ls with
  | nil => exact absurd rfl hne
  | cons g0 gs =>
    intro g hg
    rw [consHead] at hg
    injection hg with hg
    subst hg
    intro hx
    rcases List.append_eq_nil.mp hx with ⟨-, h2⟩
    exact hhead g0 rfl h2

theorem lineOk_of_forall (g : JStr)
    (h : ∀ x ∈ g, x ≠ '\n' ∧ x ≠ '\r' ∧ isJsTrimWs x = false) : lineOk g :=
  ⟨fun hx => (h _ hx).1 rfl, fun hx => (h _ hx).2.1 rfl,
    fun _ hx => (h _ (mem_of_getLast?_eq hx)).2.2⟩

theorem linesOk_wrap (first closer : JStr) (mid : List JStr)
    (hfirst : lineOk first) (hfne : first ≠ [])
    (hcl : lineOk closer) (hclne : closer ≠ [])
    (hmid : ∀ g ∈ mid, lineOk g) :
    linesOk (first :: (mid ++ [closer])) := by
  refine ⟨?_, ?_, ?_⟩
  · intro g hg
    rcases List.mem_cons.mp hg with rfl | hg2
    · exact hfirst
    rcases List.mem_append.mp hg2 with hg3 | hg3
    · exact hmid g hg3
    · rw [List.mem_singleton.mp hg3]
      exact hcl
  · intro g hg
    injection hg with hg
    subst hg
    exact hfne
  · intro g hg
    have hl : (first :: (mid ++ [closer])).getLast? = some closer := by
      rw [show first :: (mid ++ [closer]) = ([first] ++ mid) ++ [closer] by simp,
        List.getLast?_append_of_ne_nil _ (by simp)]
      simp
    rw [hl] at hg
    injection hg with hg
    subst hg
    exact hclne

mutual
theorem linesV_ok (ind : Nat) (v : Json) (hw : wfV v = true) :
    linesOk (linesV ind v) := by
  cases v with
  | null =>
    rw [linesV]
    exact linesOk_singleton _ (lineOk_of_forall _ (by decide)) (by decide)
  | bool b =>
    cases b <;> rw [linesV] <;>
      exact linesOk_singleton _ (lineOk_of_forall _ (by decide)) (by decide)
  | num lit =>
    have hw' : isValidNum lit = true := by simpa [wfV] using hw
    obtain ⟨c, t, hlit, -⟩ := validNum_head lit hw'
    rw [linesV]
    exact linesOk_singleton _ (num_lineOk lit hw') (by rw [hlit]; simp)
  | str s =>
    rw [linesV]
    exact linesOk_singleton _ (serStr_lineOk s) (by simp [serStr])
  | arr l =>
    cases l with
    | nil =>
      rw [linesV]
      exact linesOk_singleton _ (lineOk_of_forall _ (by decide)) (by decide)
    | cons h t =>
      have hwl : wfL (JsonList.cons h t) = true := by simpa [wfV] using hw
      rw [linesV]
      exact linesOk_wrap _ _ _ (lineOk_of_forall _ (by decide)) (by decide)
        (closer_lineOk ind ']' (by decide) (by decide) (by decide)) (by simp)
        (linesL_mem_ok (ind + 2) _ hwl)
  | obj l =>
    cases l with
    | nil =>
      rw [linesV]
      exact linesOk_singleton _ (lineOk_of_forall _ (by decide)) (by decide)
    | cons k v2 t =>
      have hwl : wfF (JsonFields.cons k v2 t) = true := by simpa [wfV] using hw
      rw [linesV]
      exact linesOk_wrap _ _ _ (lineOk_of_forall _ (by decide)) (by decide)
        (closer_lineOk ind '}' (by decide) (by decide) (by decide)) (by simp)
        (linesF_mem_ok (ind + 2) _ hwl)
theorem linesL_mem_ok (ind : Nat) (l : JsonList) (hw : wfL l = true) :
    ∀ g ∈ linesL ind l, lineOk g := by
  cases l with
  | nil =>
    intro g hg
    rw [linesL] at hg
    simp at hg
  | cons h t =>
    rw [wfL, Bool.and_eq_true] at hw
    cases t with
    | nil =>
      rw [linesL]
      have hOk := linesV_ok ind h hw.1
      exact consHead_mem_ok (spaces ind) (spaces_no_nl ind) (spaces_no_cr ind)
        _ hOk.1 hOk.2.1 (linesV_ne_nil ind h)
    | cons h2 t2 =>
      rw [linesL]
      intro g hg
      rcases List.mem_append.mp hg with hg2 | hg2
      · have hOk := linesV_ok ind h hw.1
        exact addLast_mem_ok [','] (lineOk_of_forall _ (by decide)) (by decide)
          _ (consHead_mem_ok (spaces ind) (spaces_no_nl ind) (spaces_no_cr ind)
            _ hOk.1 hOk.2.1 (linesV_ne_nil ind h)) g hg2
      · exact linesL_mem_ok ind (JsonList.cons h2 t2) hw.2 g hg2
theorem linesF_mem_ok (ind : Nat) (l : JsonFields) (hw : wfF l = true) :
    ∀ g ∈ linesF ind l, lineOk g := by
  cases l with
  | nil =>
    intro g hg
    rw [linesF] at hg
    simp at hg
  | cons k v t =>
    rw [wfF, Bool.and_eq_true] at hw
    have hpnl : '\n' ∉ spaces ind ++ serStr k ++ [':', ' '] := by
      intro hx
      rcases List.mem_append.mp hx with hx2 | hx2
      · rcases List.mem_append.mp hx2 with hx3 | hx3
        · exact spaces_no_nl ind hx3
        · exact (serStr_lineOk k).1 hx3
      · exact absurd hx2 (by decide)
    have hpcr : '\r' ∉ spaces ind ++ serStr k ++ [':', ' '] := by
      intro hx
      rcases List.mem_append.mp hx with hx2 | hx2
      · rcases List.mem_append.mp hx2 with hx3 | hx3
        · exact spaces_no_cr ind hx3
        · exact (serStr_lineOk k).2.1 hx3
      · exact absurd hx2 (by decide)
    cases t with
    | nil =>
      rw [linesF]
      have hOk := linesV_ok ind v hw.1
      exact consHead_mem_ok _ hpnl hpcr _ hOk.1 hOk.2.1 (linesV_ne_nil ind v)
    | cons k2 v2 t2 =>
      rw [linesF]
      intro g hg
      rcases List.mem_append.mp hg with hg2 | hg2
      · have hOk := linesV_ok ind v hw.1
        exact addLast_mem_ok [','] (lineOk_of_forall _ (by decide)) (by decide)
          _ (consHead_mem_ok _ hpnl hpcr _ hOk.1 hOk.2.1 (linesV_ne_nil ind v))
          g hg2
      · exact linesF_mem_ok ind (JsonFields.cons k2 v2 t2) hw.2 g hg2
end

/-! ## Lemmas: the serialized value survives the format post-processing -/

theorem serVal_head (ind : Nat) (v : Json) (hw : wfV v = true) :
    ∃ c t2, serVal ind v = c :: t2 ∧ isJsonWs c = false ∧ c ≠ ']' ∧ c ≠ '}' ∧
      isJsTrimWs c = false := by
  cases v with
  | null =>
    exact ⟨'n', ['u', 'l', 'l'], by rw [serVal], by decide, by decide,
      by decide, by decide⟩
  | bool b =>
    cases b
    · exact ⟨'f', ['a', 'l', 's', 'e'], by rw [serVal], by decide, by decide,
        by decide, by decide⟩
    · exact ⟨'t', ['r', 'u', 'e'], by rw [serVal], by decide, by decide,
        by decide, by decide⟩
  | num lit =>
    have hw' : isValidNum lit = true := by simpa [wfV] using hw
    obtain ⟨c, t, hlit, hs⟩ := validNum_head lit hw'
    obtain ⟨hws, -, -, -, -, -, -, hne1, hne2, htr⟩ := numStart_props c hs
    exact ⟨c, t, by rw [serVal, hlit], hws, hne1, hne2, htr⟩
  | str s =>
    exact ⟨'"', escBody s, by rw [serVal]; rfl, by decide, by decide,
      by decide, by decide⟩
  | arr l =>
    cases l with
    | nil =>
      exact ⟨'[', [']'], by rw [serVal], by decide, by decide, by decide,
        by decide⟩
    | cons h t =>
      exact ⟨'[', '\n' :: (serItems (ind + 2) (JsonList.cons h t) ++
        '\n' :: (spaces ind ++ [']'])), by rw [serVal], by decide, by decide,
        by decide, by decide⟩
  | obj l =>
    cases l with
    | nil =>
      exact ⟨'{', ['}'], by rw [serVal], by decide, by decide, by decide,
        by decide⟩
    | cons k v2 t =>
      exact ⟨'{', '\n' :: (serFields (ind + 2) (JsonFields.cons k v2 t) ++
        '\n' :: (spaces ind ++ ['}'])), by rw [serVal], by decide, by decide,
        by decide, by decide⟩

theorem normNl_cons_ne_cr (c : Char) (t : JStr) (hc : c ≠ '\r') :
    normNl (c :: t) = c :: normNl t := by
  cases t with
  | nil => simp [normNl, hc]
  | cons c2 t2 => simp [normNl, hc]

theorem normNl_no_cr (r : JStr) (h : '\r' ∉ r) : normNl r = r := by
  induction r with
  | nil => rfl
  | cons c t ih =>
    have hc : c ≠ '\r' := fun hx => h (hx ▸ List.mem_cons_self c t)
    rw [normNl_cons_ne_cr c t hc, ih fun hx => h (List.mem_cons_of_mem c hx)]

theorem splitOnNl_serVal (ind : Nat) (v : Json) (hw : wfV v = true) :
    splitOnNl (serVal ind v) = linesV ind v := by
  rw [serVal_lines]
  exact splitOnNl_joinNl _ (fun g hg => ((linesV_ok ind v hw).1 g hg).1)
    (linesV_ne_nil ind v)

theorem serVal_no_cr (ind : Nat) (v : Json) (hw : wfV v = true) :
    '\r' ∉ serVal ind v := by
  rw [serVal_lines]
  intro hx
  rcases mem_joinNl _ _ hx with ⟨g, hg, hgx⟩ | heq
  · exact ((linesV_ok ind v hw).1 g hg).2.1 hgx
  · exact absurd heq (by decide)

theorem joinNl_getLast (ls : List JStr) (hne : ls ≠ [])
    (hlast : ∀ g, ls.getLast? = some g → g ≠ []) :
    ∃ gl, ls.getLast? = some gl ∧ (joinNl ls).getLast? = gl.getLast? := by
  induction ls with
  | nil => exact absurd rfl hne
  | cons g gs ih =>
    cases gs with
    | nil => exact ⟨g, rfl, rfl⟩
    | cons g2 gs2 =>
      obtain ⟨gl, hgl, hj⟩ := ih (by simp)
        (fun g' hg' => hlast g' (by rw [List.getLast?_cons_cons]; exact hg'))
      have hglne : gl ≠ [] :=
        hlast gl (by rw [List.getLast?_cons_cons]; exact hgl)
      have hjne : joinNl (g2 :: gs2) ≠ [] := by
        intro h0
        rw [h0] at hj
        exact hglne (List.getLast?_eq_none_iff.mp hj.symm)
      refine ⟨gl, ?_, ?_⟩
      · rw [List.getLast?_cons_cons]
        exact hgl
      · rw [joinNl_cons g (g2 :: gs2) (by simp),
          List.getLast?_append_of_ne_nil _ (by simp)]
        rcases hsh : joinNl (g2 :: gs2) with _ | ⟨a, as⟩
        · exact absurd hsh hjne
        · rw [List.getLast?_cons_cons, ← hsh]
          exact hj

theorem serVal_last (ind : Nat) (v : Json) (hw : wfV v = true) :
    ∀ x, (serVal ind v).getLast? = some x → isJsTrimWs x = false := by
  intro x hx
  rw [serVal_lines] at hx
  have hOk := linesV_ok ind v hw
  obtain ⟨gl, hgl, hj⟩ := joinNl_getLast _ (linesV_ne_nil ind v) hOk.2.2
  rw [hj] at hx
  exact (hOk.1 gl (mem_of_getLast?_eq hgl)).2.2 x hx

theorem map_fixed {f : JStr → JStr} (ls : List JStr) (h : ∀ g ∈ ls, f g = g) :
    ls.map f = ls := by
  induction ls with
  | nil => rfl
  | cons g gs ih =>
    rw [List.map_cons, h g (by simp),
      ih fun g' hg' => h g' (List.mem_cons_of_mem g hg')]

theorem rev_dropWhile_id (r : JStr)
    (h : ∀ x, r.getLast? = some x → isJsTrimWs x = false) :
    r.reverse.dropWhile isJsTrimWs = r.reverse := by
  rcases hr : r.reverse with _ | ⟨x, t⟩
  · rfl
  · have hx : r.getLast? = some x := by rw [← List.head?_reverse, hr]; rfl
    rw [List.dropWhile_cons, h x hx]
    simp

theorem trimEnd_id (g : JStr)
    (h : ∀ x, g.getLast? = some x → isJsTrimWs x = false) : jsTrimEnd g = g := by
  unfold jsTrimEnd
  rw [rev_dropWhile_id g h, List.reverse_reverse]

theorem trimEnd_append_nl (r : JStr)
    (h : ∀ x, r.getLast? = some x → isJsTrimWs x = false) :
    jsTrimEnd (r ++ ['\n']) = r := by
  unfold jsTrimEnd
  rw [List.reverse_append]
  show (('\n' :: r.reverse).dropWhile isJsTrimWs).reverse = r
  rw [List.dropWhile_cons]
  rw [show isJsTrimWs '\n' = true from by decide]
  rw [if_pos rfl, rev_dropWhile_id r h, List.reverse_reverse]

theorem dropEndNl_id (r : JStr) (h : ∀ x, r.getLast? = some x → x ≠ '\n') :
    dropEndNl r = r := by
  unfold dropEndNl
  rcases hr : r.reverse with _ | ⟨x, t⟩
  · simp [List.reverse_eq_nil_iff.mp hr]
  · have hx : r.getLast? = some x := by rw [← List.head?_reverse, hr]; rfl
    rw [List.dropWhile_cons,
      show ((x == '\n') : Bool) = false from beq_eq_false_iff_ne.mpr (h x hx),
      ← hr]
    simp

theorem postProcess_serVal (v : Json) (hw : wfV v = true) :
    postProcess (serVal 0 v) = serVal 0 v ++ ['\n'] := by
  have hlast : ∀ x, (serVal 0 v).getLast? = some x → x ≠ '\n' := by
    intro x hx h0
    subst h0
    exact absurd (serVal_last 0 v hw '\n' hx) (by decide)
  simp only [postProcess]
  rw [normNl_no_cr _ (serVal_no_cr 0 v hw), splitOnNl_serVal 0 v hw,
    map_fixed _ (fun g hg => trimEnd_id g ((linesV_ok 0 v hw).1 g hg).2.2),
    ← serVal_lines, dropEndNl_id _ hlast]

theorem serVal_trim (v : Json) (hw : wfV v = true) :
    jsTrim (normNl (serVal 0 v ++ ['\n'])) = serVal 0 v := by
  have hcr : '\r' ∉ serVal 0 v ++ ['\n'] := by
    intro hx
    rcases List.mem_append.mp hx with hx2 | hx2
    · exact serVal_no_cr 0 v hw hx2
    · exact absurd hx2 (by decide)
  rw [normNl_no_cr _ hcr]
  unfold jsTrim
  obtain ⟨c, t2, hc, -, -, -, htr⟩ := serVal_head 0 v hw
  rw [hc, List.cons_append, List.dropWhile_cons, htr]
  simp only [Bool.false_eq_true, if_false]
  rw [← List.cons_append, ← hc]
  exact trimEnd_append_nl _ (serVal_last 0 v hw)

/-! ## Lemmas: sizes bound the fuel the parser needs -/

theorem sizeV_pos (v : Json) : 1 ≤ sizeV v := by
  cases v <;> simp [sizeV]

theorem sizeL_pos (l : JsonList) : 1 ≤ sizeL l := by
  cases l <;> simp [sizeL]

theorem sizeF_pos (l : JsonFields) : 1 ≤ sizeF l := by
  cases l <;> simp [sizeF]

mutual
theorem sizeV_le (ind : Nat) (v : Json) (hw : wfV v = true) :
    sizeV v ≤ (serVal ind v).length := by
  cases v with
  | null => simp [sizeV, serVal]
  | bool b => cases b <;> simp [sizeV, serVal]
  | num lit =>
    obtain ⟨c, t, hlit, -⟩ := validNum_head lit (by simpa [wfV] using hw)
    rw [sizeV, serVal, hlit]
    simp
  | str s => simp [sizeV, serVal, serStr]
  | arr l =>
    cases l with
    | nil => simp [sizeV, sizeL, serVal]
    | cons h t =>
      have hL := sizeL_le (ind + 2) (JsonList.cons h t) (by simpa [wfV] using hw)
      rw [sizeV, serVal]
      simp only [List.length_cons, List.length_append, spaces,
        List.length_replicate, List.length_singleton]
      omega
  | obj l =>
    cases l with
    | nil => simp [sizeV, sizeF, serVal]
    | cons k v2 t =>
      have hL := sizeF_le (ind + 2) (JsonFields.cons k v2 t) (by simpa [wfV] using hw)
      rw [sizeV, serVal]
      simp only [List.length_cons, List.length_append, spaces,
        List.length_replicate, List.length_singleton]
      omega
theorem sizeL_le (ind : Nat) (l : JsonList) (hw : wfL l = true) :
    sizeL l ≤ (serItems ind l).length + 2 := by
  cases l with
  | nil => simp [sizeL]
  | cons h t =>
    rw [wfL, Bool.and_eq_true] at hw
    cases t with
    | nil =>
      have hV := sizeV_le ind h hw.1
      rw [sizeL, sizeL, serItems]
      simp only [List.length_append, spaces, List.length_replicate]
      omega
    | cons h2 t2 =>
      have hV := sizeV_le ind h hw.1
      have hT := sizeL_le ind (JsonList.cons h2 t2) hw.2
      rw [sizeL, serItems]
      simp only [List.length_append, List.length_cons, spaces,
        List.length_replicate]
      omega
theorem sizeF_le (ind : Nat) (l : JsonFields) (hw : wfF l = true) :
    sizeF l ≤ (serFields ind l).length + 2 := by
  cases l with
  | nil => simp [sizeF]
  | cons k v t =>
    rw [wfF, Bool.and_eq_true] at hw
    cases t with
    | nil =>
      have hV := sizeV_le ind v hw.1
      rw [sizeF, sizeF, serFields]
      simp only [List.length_append, List.length_cons, spaces,
        List.length_replicate]
      omega
    | cons k2 v2 t2 =>
      have hV := sizeV_le ind v hw.1
      have hT := sizeF_le ind (JsonFields.cons k2 v2 t2) hw.2
      rw [sizeF, serFields]
      simp only [List.length_append, List.length_cons, spaces,
        List.length_replicate]
      omega
end

/-! ## Lemmas: parsing a serialized value gives the value back -/

theorem numStop_head (r : JStr) (h : numStop r = true) :
    ∀ c, r.head? = some c → isNumChar c = false := by
  cases r with
  | nil =>
    intro c hc
    simp at hc
  | cons c0 t =>
    intro c hc
    injection hc with hc
    subst hc
    rw [numStop] at h
    simpa using h

theorem rtAll : ∀ n : Nat,
    (∀ v : Json, sizeV v ≤ n → ∀ f, n < f → ∀ ind rest, wfV v = true →
      numStop rest = true →
      parseValue f (serVal ind v ++ rest) = some (v, rest)) ∧
    (∀ L : JsonList, sizeL L ≤ n → ∀ f, n < f → ∀ ind pad rest,
      wfL L = true → L ≠ JsonList.nil → (∀ c ∈ pad, isJsonWs c = true) →
      parseItems f ('\n' :: (serItems ind L ++ '\n' :: (pad ++ ']' :: rest))) =
        some (L, rest)) ∧
    (∀ Fs : JsonFields, sizeF Fs ≤ n → ∀ f, n < f → ∀ ind pad rest,
      wfF Fs = true → Fs ≠ JsonFields.nil → (∀ c ∈ pad, isJsonWs c = true) →
      parseFields f ('\n' :: (serFields ind Fs ++ '\n' :: (pad ++ '}' :: rest))) =
        some (Fs, rest)) := by
  intro n
  induction n with
  | zero =>
    refine ⟨?_, ?_, ?_⟩
    · intro v hsz
      exact absurd hsz (by have := sizeV_pos v; omega)
    · intro L hsz
      exact absurd hsz (by have := sizeL_pos L; omega)
    · intro Fs hsz
      exact absurd hsz (by have := sizeF_pos Fs; omega)
  | succ n ih =>
    obtain ⟨ihV, ihI, ihF⟩ := ih
    refine ⟨?_, ?_, ?_⟩
    -- values
    · intro v hsz f hf ind rest hwf hstop
      cases f with
      | zero => omega
      | succ f =>
        cases v with
        | null =>
          rw [serVal]
          simp only [List.cons_append, List.nil_append]
          rw [parseValue, skipWs_cons_not _ _ (by decide)]
          simp [stripPre]
        | bool b =>
          cases b
          · rw [serVal]
            simp only [List.cons_append, List.nil_append]
            rw [parseValue, skipWs_cons_not _ _ (by decide)]
            simp [stripPre]
          · rw [serVal]
            simp only [List.cons_append, List.nil_append]
            rw [parseValue, skipWs_cons_not _ _ (by decide)]
            simp [stripPre]
        | str s =>
          rw [serVal]
          rw [show serStr s ++ rest = '"' :: (escBody s ++ rest) by simp [serStr]]
          rw [parseValue, skipWs_cons_not _ _ (by decide)]
          simp [escBody_parse]
        | num lit =>
          have hw' : isValidNum lit = true := by simpa [wfV] using hwf
          obtain ⟨c, t, hlit, hs⟩ := validNum_head lit hw'
          obtain ⟨hjw, hn, ht, hf2, hq, hlb, hob, -, -, -⟩ := numStart_props c hs
          have hchars : ∀ x ∈ lit, isNumChar x = true := validNum_chars lit hw'
          have hstop' := numStop_head rest hstop
          obtain ⟨htake, hdrop⟩ := takeWhile_append_stop lit rest hchars hstop'
          subst hlit
          rw [serVal, List.cons_append, parseValue, skipWs_cons_not _ _ hjw]
          dsimp only
          rw [if_neg hn, if_neg ht, if_neg hf2, if_neg hq, if_neg hlb,
            if_neg hob, if_pos hs]
          simp only [← List.cons_append]
          simp only [htake, hdrop]
          rw [if_pos hw']
        | arr l =>
          cases l with
          | nil =>
            rw [serVal]
            simp only [List.cons_append, List.nil_append]
            rw [parseValue, skipWs_cons_not _ _ (by decide)]
            have hsw : skipWs (']' :: rest) = ']' :: rest :=
              skipWs_cons_not _ _ (by decide)
            simp [hsw]
          | cons h t =>
            have hwl : wfL (JsonList.cons h t) = true := by simpa [wfV] using hwf
            have hv : wfV h = true := by
              rw [wfL, Bool.and_eq_true] at hwl
              exact hwl.1
            have hszL : sizeL (JsonList.cons h t) ≤ n := by
              rw [sizeV] at hsz
              omega
            rw [serVal]
            simp only [List.cons_append, List.append_assoc,
              List.singleton_append, List.nil_append]
            rw [parseValue, skipWs_cons_not _ _ (by decide)]
            dsimp only
            rw [if_neg (by decide), if_neg (by decide), if_neg (by decide),
              if_neg (by decide), if_pos rfl]
            obtain ⟨c0, t0, hch, hc0ws, hc0rb, hc0cb, -⟩ :=
              serVal_head (ind + 2) h hv
            have hskip : skipWs ('\n' :: (serItems (ind + 2) (JsonList.cons h t) ++
                '\n' :: (spaces ind ++ ']' :: rest))) =
                c0 :: (t0 ++ (itemsSep (ind + 2) t ++
                  '\n' :: (spaces ind ++ ']' :: rest))) := by
              rw [serItems_cons, hch]
              simp only [List.cons_append, List.append_assoc]
              rw [show ('\n' :: (spaces (ind + 2) ++ (c0 :: (t0 ++
                  (itemsSep (ind + 2) t ++ '\n' :: (spaces ind ++ ']' :: rest))))) : JStr) =
                ('\n' :: spaces (ind + 2)) ++ (c0 :: (t0 ++
                  (itemsSep (ind + 2) t ++ '\n' :: (spaces ind ++ ']' :: rest)))) by simp]
              rw [skipWs_ws_append _ _ (by
                intro x hx
                rcases List.mem_cons.mp hx with rfl | hx2
                · decide
                · exact spaces_ws _ x hx2)]
              exact skipWs_cons_not _ _ hc0ws
            rw [hskip]
            rw [if_neg (by simp [hc0rb])]
            have hI := ihI (JsonList.cons h t) hszL f (by omega) (ind + 2)
              (spaces ind) rest hwl (by simp) (spaces_ws ind)
            rw [hI]
        | obj l =>
          cases l with
          | nil =>
            rw [serVal]
            simp only [List.cons_append, List.nil_append]
            rw [parseValue, skipWs_cons_not _ _ (by decide)]
            have hsw : skipWs ('}' :: rest) = '}' :: rest :=
              skipWs_cons_not _ _ (by decide)
            simp [hsw]
          | cons k v2 t =>
            have hwl : wfF (JsonFields.cons k v2 t) = true := by
              simpa [wfV] using hwf
            have hszF : sizeF (JsonFields.cons k v2 t) ≤ n := by
              rw [sizeV] at hsz
              omega
            rw [serVal]
            simp only [List.cons_append, List.append_assoc,
              List.singleton_append, List.nil_append]
            rw [parseValue, skipWs_cons_not _ _ (by decide)]
            dsimp only
            rw [if_neg (by decide), if_neg (by decide), if_neg (by decide),
              if_neg (by decide), if_neg (by decide), if_pos rfl]
            have hskip : skipWs ('\n' :: (serFields (ind + 2) (JsonFields.cons k v2 t) ++
                '\n' :: (spaces ind ++ '}' :: rest))) =
                '"' :: (escBody k ++ (':' :: ' ' :: (serVal (ind + 2) v2 ++
                  (fieldsSep (ind + 2) t ++ '\n' :: (spaces ind ++ '}' :: rest))))) := by
              rw [serFields_cons]
              simp only [serStr, List.cons_append, List.append_assoc]
              rw [show ('\n' :: (spaces (ind + 2) ++ ('"' :: (escBody k ++
                  (':' :: ' ' :: (serVal (ind + 2) v2 ++ (fieldsSep (ind + 2) t ++
                    '\n' :: (spaces ind ++ '}' :: rest))))))) : JStr) =
                ('\n' :: spaces (ind + 2)) ++ ('"' :: (escBody k ++
                  (':' :: ' ' :: (serVal (ind + 2) v2 ++ (fieldsSep (ind + 2) t ++
                    '\n' :: (spaces ind ++ '}' :: rest)))))) by simp]
              rw [skipWs_ws_append _ _ (by
                intro x hx
                rcases List.mem_cons.mp hx with rfl | hx2
                · decide
                · exact spaces_ws _ x hx2)]
              exact skipWs_cons_not _ _ (by decide)
            rw [hskip]
            rw [if_neg (by simp)]
            have hF := ihF (JsonFields.cons k v2 t) hszF f (by omega) (ind + 2)
              (spaces ind) rest hwl (by simp) (spaces_ws ind)
            rw [hF]
    -- array items
    · intro L hsz f hf ind pad rest hwf hne hpad
      cases f with
      | zero => omega
      | succ f =>
        cases L with
        | nil => exact absurd rfl hne
        | cons h t =>
          rw [wfL, Bool.and_eq_true] at hwf
          rw [parseItems, serItems_cons]
          simp only [List.cons_append, List.append_assoc]
          cases t with
          | nil =>
            simp only [itemsSep, List.nil_append]
            have hszV : sizeV h ≤ n := by
              rw [sizeL, sizeL] at hsz
              omega
            have hv := ihV h hszV f (by omega) ind
              ('\n' :: (pad ++ ']' :: rest)) hwf.1 (by rw [numStop]; decide)
            rw [show ('\n' :: (spaces ind ++ (serVal ind h ++
                '\n' :: (pad ++ ']' :: rest))) : JStr) =
              ('\n' :: spaces ind) ++ (serVal ind h ++
                '\n' :: (pad ++ ']' :: rest)) by simp]
            rw [parseValue_ws f _ _ (by
              intro x hx
              rcases List.mem_cons.mp hx with rfl | hx2
              · decide
              · exact spaces_ws _ x hx2)]
            rw [hv]
            dsimp only
            have hsw : skipWs ('\n' :: (pad ++ ']' :: rest)) = ']' :: rest := by
              rw [show ('\n' :: (pad ++ ']' :: rest) : JStr) =
                ('\n' :: pad) ++ (']' :: rest) by simp]
              rw [skipWs_ws_append _ _ (by
                intro x hx
                rcases List.mem_cons.mp hx with rfl | hx2
                · decide
                · exact hpad x hx2)]
              exact skipWs_cons_not _ _ (by decide)
            rw [hsw]
            simp
          | cons h2 t2 =>
            simp only [itemsSep, List.cons_append, List.append_assoc]
            have hszV : sizeV h ≤ n := by
              rw [sizeL] at hsz
              have := sizeL_pos (JsonList.cons h2 t2)
              omega
            have hszT : sizeL (JsonList.cons h2 t2) ≤ n := by
              rw [sizeL] at hsz
              have := sizeV_pos h
              omega
            have hv := ihV h hszV f (by omega) ind
              (',' :: '\n' :: (serItems ind (JsonList.cons h2 t2) ++
                '\n' :: (pad ++ ']' :: rest))) hwf.1 (by rw [numStop]; decide)
            rw [show ('\n' :: (spaces ind ++ (serVal ind h ++
                ',' :: '\n' :: (serItems ind (JsonList.cons h2 t2) ++
                  '\n' :: (pad ++ ']' :: rest)))) : JStr) =
              ('\n' :: spaces ind) ++ (serVal ind h ++
                ',' :: '\n' :: (serItems ind (JsonList.cons h2 t2) ++
                  '\n' :: (pad ++ ']' :: rest))) by simp]
            rw [parseValue_ws f _ _ (by
              intro x hx
              rcases List.mem_cons.mp hx with rfl | hx2
              · decide
              · exact spaces_ws _ x hx2)]
            rw [hv]
            dsimp only
            rw [skipWs_cons_not _ _ (by decide)]
            dsimp only
            rw [if_pos rfl]
            have hI2 := ihI (JsonList.cons h2 t2) hszT f (by omega) ind pad rest
              hwf.2 (by simp) hpad
            rw [hI2]
    -- object members
    · intro Fs hsz f hf ind pad rest hwf hne hpad
      cases f with
      | zero => omega
      | succ f =>
        cases Fs with
        | nil => exact absurd rfl hne
        | cons k v t =>
          rw [wfF, Bool.and_eq_true] at hwf
          rw [parseFields, serFields_cons]
          simp only [serStr, List.cons_append, List.append_assoc]
          have hskip : skipWs ('\n' :: (spaces ind ++ ('"' :: (escBody k ++
              (':' :: ' ' :: (serVal ind v ++ (fieldsSep ind t ++
                '\n' :: (pad ++ '}' :: rest)))))))) =
              '"' :: (escBody k ++ (':' :: ' ' :: (serVal ind v ++
                (fieldsSep ind t ++ '\n' :: (pad ++ '}' :: rest))))) := by
            rw [show ('\n' :: (spaces ind ++ ('"' :: (escBody k ++
                (':' :: ' ' :: (serVal ind v ++ (fieldsSep ind t ++
                  '\n' :: (pad ++ '}' :: rest))))))) : JStr) =
              ('\n' :: spaces ind) ++ ('"' :: (escBody k ++
                (':' :: ' ' :: (serVal ind v ++ (fieldsSep ind t ++
                  '\n' :: (pad ++ '}' :: rest)))))) by simp]
            rw [skipWs_ws_append _ _ (by
              intro x hx
              rcases List.mem_cons.mp hx with rfl | hx2
              · decide
              · exact spaces_ws _ x hx2)]
            exact skipWs_cons_not _ _ (by decide)
          rw [hskip]
          dsimp only
          rw [if_pos rfl]
          rw [escBody_parse]
          dsimp only
          rw [skipWs_cons_not _ _ (by decide)]
          dsimp only
          rw [if_pos rfl]
          have hszV : sizeV v ≤ n := by
            rw [sizeF] at hsz
            have := sizeF_pos t
            omega
          cases t with
          | nil =>
            simp only [fieldsSep, List.nil_append]
            have hv := ihV v hszV f (by omega) ind
              ('\n' :: (pad ++ '}' :: rest)) hwf.1 (by rw [numStop]; decide)
            rw [show (' ' :: (serVal ind v ++ '\n' :: (pad ++ '}' :: rest)) : JStr) =
              [' '] ++ (serVal ind v ++ '\n' :: (pad ++ '}' :: rest)) by simp]
            rw [parseValue_ws f _ _ (by intro x hx; simp at hx; subst hx; decide)]
            rw [hv]
            dsimp only
            have hsw : skipWs ('\n' :: (pad ++ '}' :: rest)) = '}' :: rest := by
              rw [show ('\n' :: (pad ++ '}' :: rest) : JStr) =
                ('\n' :: pad) ++ ('}' :: rest) by simp]
              rw [skipWs_ws_append _ _ (by
                intro x hx
                rcases List.mem_cons.mp hx with rfl | hx2
                · decide
                · exact hpad x hx2)]
              exact skipWs_cons_not _ _ (by decide)
            rw [hsw]
            simp
          | cons k2 v2 t2 =>
            simp only [fieldsSep, List.cons_append, List.append_assoc]
            have hszT : sizeF (JsonFields.cons k2 v2 t2) ≤ n := by
              rw [sizeF] at hsz
              have := sizeV_pos v
              omega
            have hv := ihV v hszV f (by omega) ind
              (',' :: '\n' :: (serFields ind (JsonFields.cons k2 v2 t2) ++
                '\n' :: (pad ++ '}' :: rest))) hwf.1 (by rw [numStop]; decide)
            rw [show (' ' :: (serVal ind v ++ ',' :: '\n' ::
                (serFields ind (JsonFields.cons k2 v2 t2) ++
                  '\n' :: (pad ++ '}' :: rest))) : JStr) =
              [' '] ++ (serVal ind v ++ ',' :: '\n' ::
                (serFields ind (JsonFields.cons k2 v2 t2) ++
                  '\n' :: (pad ++ '}' :: rest))) by simp]
            rw [parseValue_ws f _ _ (by intro x hx; simp at hx; subst hx; decide)]
            rw [hv]
            dsimp only
            rw [skipWs_cons_not _ _ (by decide)]
            dsimp only
            rw [if_pos rfl]
            have hF2 := ihF (JsonFields.cons k2 v2 t2) hszT f (by omega) ind pad
              rest hwf.2 (by simp) hpad
            rw [hF2]

theorem jsonParse_serVal (v : Json) (hw : wfV v = true) :
    jsonParse (serVal 0 v) = some v := by
  unfold jsonParse
  have hlen : sizeV v < (serVal 0 v).length + 1 := by
    have := sizeV_le 0 v hw
    omega
  have h := (rtAll (sizeV v)).1 v le_rfl ((serVal 0 v).length + 1) hlen 0 []
    hw (by rw [numStop])
  rw [List.append_nil] at h
  rw [h]
  rfl

/-! ## Lemmas: every value the parser produces is well-formed -/

theorem parse_wf : ∀ fuel : Nat,
    (∀ s v r, parseValue fuel s = some (v, r) → wfV v = true) ∧
    (∀ s l r, parseItems fuel s = some (l, r) → wfL l = true) ∧
    (∀ s fs r, parseFields fuel s = some (fs, r) → wfF fs = true) := by
  intro fuel
  induction fuel with
  | zero =>
    refine ⟨?_, ?_, ?_⟩
    · intro s a r h
      exact absurd h (by rw [parseValue]; simp)
    · intro s a r h
      exact absurd h (by rw [parseItems]; simp)
    · intro s a r h
      exact absurd h (by rw [parseFields]; simp)
  | succ n ih =>
    obtain ⟨ihV, ihI, ihF⟩ := ih
    refine ⟨?_, ?_, ?_⟩
    · intro s v r h
      rw [parseValue] at h
      rcases hsw : skipWs s with _ | ⟨c, r0⟩ <;> rw [hsw] at h
      · simp at h
      dsimp only at h
      split_ifs at h with h1 h2 h3 h4 h5 hemp h6 hemp2 h7 hval
      · rcases hsp : stripPre ['u', 'l', 'l'] r0 with _ | r2 <;>
          rw [hsp] at h <;> dsimp only at h
        · simp at h
        · injection h with h
          injection h with h h'
          subst h
          rfl
      · rcases hsp : stripPre ['r', 'u', 'e'] r0 with _ | r2 <;>
          rw [hsp] at h <;> dsimp only at h
        · simp at h
        · injection h with h
          injection h with h h'
          subst h
          rfl
      · rcases hsp : stripPre ['a', 'l', 's', 'e'] r0 with _ | r2 <;>
          rw [hsp] at h <;> dsimp only at h
        · simp at h
        · injection h with h
          injection h with h h'
          subst h
          rfl
      · rcases hsp : parseStringBody r0 with _ | ⟨cs, r2⟩ <;>
          rw [hsp] at h <;> dsimp only at h
        · simp at h
        · injection h with h
          injection h with h h'
          subst h
          rfl
      · injection h with h
        injection h with h h'
        subst h
        rfl
      · rcases hsp : parseItems n r0 with _ | ⟨l2, r2⟩ <;>
          rw [hsp] at h <;> dsimp only at h
        · simp at h
        · injection h with h
          injection h with h h'
          subst h
          rw [wfV]
          exact ihI r0 l2 r2 hsp
      · injection h with h
        injection h with h h'
        subst h
        rfl
      · rcases hsp : parseFields n r0 with _ | ⟨l2, r2⟩ <;>
          rw [hsp] at h <;> dsimp only at h
        · simp at h
        · injection h with h
          injection h with h h'
          subst h
          rw [wfV]
          exact ihF r0 l2 r2 hsp
      · injection h with h
        injection h with h h'
        subst h
        rw [wfV]
        exact hval
    · intro s l r h
      rw [parseItems] at h
      rcases hpv : parseValue n s with _ | ⟨⟨v, r0⟩⟩ <;> rw [hpv] at h
      · simp at h
      dsimp only at h
      rcases hsw : skipWs r0 with _ | ⟨c, r2⟩ <;> rw [hsw] at h
      · simp at h
      dsimp only at h
      split_ifs at h with h1 h2
      · rcases hsp : parseItems n r2 with _ | ⟨tl, r3⟩ <;> rw [hsp] at h <;>
          dsimp only at h
        · simp at h
        · injection h with h
          injection h with h h'
          subst h
          rw [wfL, Bool.and_eq_true]
          exact ⟨ihV s v r0 hpv, ihI r2 tl r3 hsp⟩
      · injection h with h
        injection h with h h'
        subst h
        rw [wfL, Bool.and_eq_true]
        exact ⟨ihV s v r0 hpv, rfl⟩
    · intro s fs r h
      rw [parseFields] at h
      rcases hsw : skipWs s with _ | ⟨c0, r0⟩ <;> rw [hsw] at h
      · simp at h
      dsimp only at h
      split_ifs at h with h1
      rcases hsb : parseStringBody r0 with _ | ⟨⟨k, r1⟩⟩ <;> rw [hsb] at h
      · simp at h
      dsimp only at h
      rcases hsw2 : skipWs r1 with _ | ⟨c1, r2⟩ <;> rw [hsw2] at h
      · simp at h
      dsimp only at h
      split_ifs at h with h2
      rcases hpv : parseValue n r2 with _ | ⟨⟨v, r3⟩⟩ <;> rw [hpv] at h
      · simp at h
      dsimp only at h
      rcases hsw3 : skipWs r3 with _ | ⟨c2, r4⟩ <;> rw [hsw3] at h
      · simp at h
      dsimp only at h
      split_ifs at h with h3 h4
      · rcases hsp : parseFields n r4 with _ | ⟨tl, r5⟩ <;> rw [hsp] at h <;>
          dsimp only at h
        · simp at h
        · injection h with h
          injection h with h h'
          subst h
          rw [wfF, Bool.and_eq_true]
          exact ⟨ihV r2 v r3 hpv, ihF r4 tl r5 hsp⟩
      · injection h with h
        injection h with h h'
        subst h
        rw [wfF, Bool.and_eq_true]
        exact ⟨ihV r2 v r3 hpv, rfl⟩

theorem jsonParse_wf (s : JStr) (v : Json) (h : jsonParse s = some v) :
    wfV v = true := by
  unfold jsonParse at h
  rcases hpv : parseValue (s.length + 1) s with _ | ⟨⟨v2, r⟩⟩ <;> rw [hpv] at h <;>
    dsimp only at h
  · simp at h
  split_ifs at h
  injection h with h
  subst h
  exact (parse_wf (s.length + 1)).1 s v2 r hpv

/-! ## Claim C6: normalizer idempotence -/

/-- The formatted output of a successfully parsed value is a fixed point of
`formatJson` on strings: its trim-and-parse recovers the same value, and the
re-serialization is identical. -/
theorem formatJson_fixed (v : Json) (hw : wfV v = true) :
    formatJsonStr (postProcess (serVal 0 v)) = postProcess (serVal 0 v) := by
  rw [postProcess_serVal v hw]
  unfold formatJsonStr formatJson
  dsimp only
  rw [serVal_trim v hw, jsonParse_serVal v hw]
  dsimp only
  rw [postProcess_serVal v hw]

/-- C6 (counterexample to the literal claim).  The number `5` round-trips
through JSON (`JSON.parse(JSON.stringify(5))` is `5` and even
`JSON.parse("5")` succeeds), but `formatJson` returns `String(5 || "")`,
i.e. `"5"`, for the non-string non-object input `5`, while
`formatJson("5")` appends the trailing newline of the success path, so
`normalize(normalize(5)) = "5\n" ≠ "5" = normalize(5)`: idempotence fails
for primitive inputs even though they round-trip through JSON. -/
theorem C6_counterexample :
    jsonParse (jsTrim (normNl ['5'])) = some (Json.num ['5']) ∧
    formatJson (FormatInput.prim ['5']) = ['5'] ∧
    formatJsonStr (formatJson (FormatInput.prim ['5'])) = ['5', '\n'] ∧
    formatJsonStr (formatJson (FormatInput.prim ['5'])) ≠
      formatJson (FormatInput.prim ['5']) := by
  decide

/-- C6 (amended).  For every STRING input whose normalized, trimmed form
parses as JSON (the round-tripping inputs of the claim, restricted to the
string case), `normalize` is idempotent: `normalize(normalize(s)) =
normalize(s)`; and for every object input whose model value is well-formed,
`normalize(normalize-output)` is likewise fixed.  (For other primitive
inputs such as the number `5` idempotence fails, see the counterexample.) -/
theorem C6_theorem :
    (∀ s v, jsonParse (jsTrim (normNl s)) = some v →
      formatJsonStr (formatJsonStr s) = formatJsonStr s) ∧
    (∀ v, wfV v = true →
      formatJsonStr (formatJson (FormatInput.obj v)) =
        formatJson (FormatInput.obj v)) := by
  constructor
  · intro s v h
    have hw := jsonParse_wf _ _ h
    have h1 : formatJsonStr s = postProcess (serVal 0 v) := by
      unfold formatJsonStr formatJson
      dsimp only
      rw [h]
    rw [h1]
    exact formatJson_fixed v hw
  · intro v hw
    show formatJsonStr (postProcess (serVal 0 v)) = postProcess (serVal 0 v)
    exact formatJson_fixed v hw

/-- Witness for C6 at the concrete round-tripping input `"[1]"`. -/
theorem C6_witness :
    jsonParse (jsTrim (normNl ['[', '1', ']'])) =
      some (Json.arr (JsonList.cons (Json.num ['1']) JsonList.nil)) ∧
    formatJsonStr (formatJsonStr ['[', '1', ']']) =
      formatJsonStr ['[', '1', ']'] :=
  ⟨by decide, C6_theorem.1 ['[', '1', ']']
    (Json.arr (JsonList.cons (Json.num ['1']) JsonList.nil)) (by decide)⟩

end ItemDiff
